import Mathlib

/-!
# Mixtape: diagonal-Gaussian HMM E-step

A shallow embedding of `src/estep/src/DiagonalGaussianHMMEstep.cpp`.

* `float` and `double` values are elements of a field `F` (the theorems take `F = ℝ` and
  `log = Real.log`), so casts between the two precisions are the identity.
* `int` and `size_t` counters are natural numbers: array sizes are assumed to fit the machine
  types, no wrap-around is modelled.
* A `boost::multi_array` of two dimensions is a record of its two extents and its row-major
  element storage; `&a[0][0]` is that storage.
* Every element access is bounds-checked: reading or writing outside the storage (or outside the
  extents, for `a[i][j]`) ends the run with `Failure.outOfRange`.
-/

namespace Mixtape

/-- Ways a run can end without a result. -/
inductive Failure where
  /-- A `MixtapeException` was thrown with the given message. -/
  | exception (msg : String)
  /-- An `assert(...)` did not hold. -/
  | assertion
  /-- An element access fell outside an array. -/
  | outOfRange
  deriving DecidableEq, Repr

/-- Two-dimensional `boost::multi_array` (`FloatArray2D`, `DoubleArray2D`): `shape()[0]`,
`shape()[1]` and the row-major storage. -/
structure Array2D (F : Type) where
  rows : Nat
  cols : Nat
  data : List F
  deriving DecidableEq, Repr

namespace Array2D

variable {F : Type}

/-- The storage holds exactly `rows * cols` elements (true of every `multi_array`). -/
def WF (a : Array2D F) : Prop := a.data.length = a.rows * a.cols

instance (a : Array2D F) : Decidable a.WF := by unfold WF; infer_instance

/-- Result of `multi_array(boost::extents[r][c])`: value-initialised elements. -/
def zeros [Zero F] (r c : Nat) : Array2D F := ⟨r, c, List.replicate (r * c) 0⟩

/-- Total reading of entry `[i][j]`, used to state properties (0 outside the storage). -/
def entry [Zero F] (a : Array2D F) (i j : Nat) : F := a.data.getD (i * a.cols + j) 0

end Array2D

/-- Pointer read `p[i]`, bounds-checked. -/
def readAt {F : Type} (p : List F) (i : Nat) : Except Failure F :=
  match p[i]? with
  | some v => .ok v
  | none => .error .outOfRange

/-- Pointer write `p[i] = v`, bounds-checked. -/
def writeAt {F : Type} (p : List F) (i : Nat) (v : F) : Except Failure (List F) :=
  if i < p.length then .ok (p.set i v) else .error .outOfRange

/-- Read of `a[i][j]`, bounds-checked against the extents. -/
def Array2D.get {F : Type} (a : Array2D F) (i j : Nat) : Except Failure F :=
  if i < a.rows ∧ j < a.cols then readAt a.data (i * a.cols + j) else .error .outOfRange

/-- Assignment `a[i][j] = v`, bounds-checked against the extents. -/
def Array2D.set {F : Type} (a : Array2D F) (i j : Nat) (v : F) : Except Failure (Array2D F) :=
  if i < a.rows ∧ j < a.cols then
    (writeAt a.data (i * a.cols + j) v).map (fun d => { a with data := d })
  else .error .outOfRange

/-- Counted loop `for (i = 0; i < n; i++) body`, threading the state it updates. -/
def forLoop {σ : Type} (n : Nat) (body : Nat → σ → Except Failure σ) (s : σ) :
    Except Failure σ :=
  match n with
  | 0 => .ok s
  | k + 1 => forLoop k body s >>= body k

/-- The constant `log_M_2_PI` of `gaussian_loglikelihood_diag`. -/
def log_M_2_PI {F : Type} [Field F] : F := 1.8378770664093453

/-- Body of the innermost loop of `gaussian_loglikelihood_diag` (lines 28-32): one feature's
contribution added to `temp`. -/
def featureStep {F : Type} [Field F] (sequence variances means_over_variances
    means2_over_variances log_variances : List F) (n_features t j : Nat) (i : Nat) (temp : F) :
    Except Failure F := do
  let x ← readAt sequence (t * n_features + i)
  let m2 ← readAt means2_over_variances (j * n_features + i)
  let m1 ← readAt means_over_variances (j * n_features + i)
  let v ← readAt variances (j * n_features + i)
  let lv ← readAt log_variances (j * n_features + i)
  pure (temp + (m2 - 2.0 * x * m1 + (x * x) / v + lv))

/-- Body of the loop over states (lines 26-34): accumulate `temp`, store the log-likelihood. -/
def stateStep {F : Type} [Field F] (sequence variances means_over_variances
    means2_over_variances log_variances : List F) (n_states n_features t : Nat) (j : Nat)
    (loglikelihoods : List F) : Except Failure (List F) := do
  let temp ← forLoop n_features
    (featureStep sequence variances means_over_variances means2_over_variances log_variances
      n_features t j) 0
  writeAt loglikelihoods (t * n_states + j) (-0.5 * ((n_features : F) * log_M_2_PI + temp))

/-- The kernel `gaussian_loglikelihood_diag`: returns the final contents of `loglikelihoods`.
The parameter `means` is never read by the source and is kept for the signature. -/
def gaussian_loglikelihood_diag {F : Type} [Field F] (sequence _means variances
    means_over_variances means2_over_variances log_variances : List F)
    (n_observations n_states n_features : Nat) (loglikelihoods : List F) :
    Except Failure (List F) :=
  forLoop n_observations (fun t out =>
    forLoop n_states
      (stateStep sequence variances means_over_variances means2_over_variances log_variances
        n_states n_features t) out) loglikelihoods

/-- The object `DiagonalGaussianHMMEstep`: the members of the base `HMMEstep` it is constructed
with (`numStates_`, the transition matrix, the start probabilities) and its own members. -/
structure DiagonalGaussianHMMEstep (F : Type) where
  numStates_ : Nat
  transmat_ : Array2D F
  startProb_ : List F
  numFeatures_ : Nat
  means_ : Array2D F
  variances_ : Array2D F
  logVariances_ : Array2D F
  meansOverVariances_ : Array2D F
  means2OverVariances_ : Array2D F

/-- Cache arrays filled by the constructor's loops. -/
structure Cache (F : Type) where
  logVariances : Array2D F
  meansOverVariances : Array2D F
  means2OverVariances : Array2D F

/-- Body of the constructor's inner loop (lines 63-65). -/
def cacheStep {F : Type} [Field F] (log : F → F) (means variances : Array2D F) (i : Nat)
    (j : Nat) (c : Cache F) : Except Failure (Cache F) := do
  let v ← variances.get i j
  let lv ← c.logVariances.set i j (log v)
  let m ← means.get i j
  let v1 ← variances.get i j
  let mv ← c.meansOverVariances.set i j (m / v1)
  let ma ← means.get i j
  let mb ← means.get i j
  let v2 ← variances.get i j
  let m2v ← c.means2OverVariances.set i j ((ma * mb) / v2)
  pure ⟨lv, mv, m2v⟩

/-- The constructor `DiagonalGaussianHMMEstep::DiagonalGaussianHMMEstep` (lines 41-68). The
member initialisers copy the arguments and allocate the zeroed cache, the body throws on a wrong
shape and otherwise fills the cache. `log` is the logarithm of `<cmath>`. The constructor of the
base class `HMMEstep` is not part of the sources; it is taken to store `numStates`, `transmat`
and `startProb`. -/
def DiagonalGaussianHMMEstep.new {F : Type} [Field F] (log : F → F) (numStates : Nat)
    (transmat : Array2D F) (startProb : List F) (numFeatures : Nat)
    (means variances : Array2D F) : Except Failure (DiagonalGaussianHMMEstep F) :=
  let init : Cache F :=
    ⟨Array2D.zeros numStates numFeatures, Array2D.zeros numStates numFeatures,
     Array2D.zeros numStates numFeatures⟩
  if numStates ≠ means.rows ∨ numFeatures ≠ means.cols then
    .error (.exception "means has wrong shape")
  else if numStates ≠ variances.rows ∨ numFeatures ≠ variances.cols then
    .error (.exception "variances has wrong shape")
  else do
    let c ← forLoop numStates (fun i c =>
      forLoop numFeatures (cacheStep log means variances i) c) init
    pure ⟨numStates, transmat, startProb, numFeatures, means, variances,
      c.logVariances, c.meansOverVariances, c.means2OverVariances⟩

/-- The method `DiagonalGaussianHMMEstep::emissionLogLikelihood` (lines 70-76). -/
def DiagonalGaussianHMMEstep.emissionLogLikelihood {F : Type} [Field F]
    (self : DiagonalGaussianHMMEstep F) (X : Array2D F) : Except Failure (Array2D F) := do
  let frameLogProb : Array2D F := Array2D.zeros X.rows self.numStates_
  let out ← gaussian_loglikelihood_diag X.data self.means_.data self.variances_.data
    self.meansOverVariances_.data self.means2OverVariances_.data self.logVariances_.data
    X.rows self.numStates_ self.numFeatures_ frameLogProb.data
  pure { frameLogProb with data := out }

/-- Closed form of `temp` after the feature loop for frame `t` and state `j`. -/
def tempSum {F : Type} [Field F] (sequence variances mov m2ov lv : List F)
    (n_features t j : Nat) (n : Nat) : F :=
  ∑ i in Finset.range n, (m2ov.getD (j * n_features + i) 0
    - 2.0 * sequence.getD (t * n_features + i) 0 * mov.getD (j * n_features + i) 0
    + (sequence.getD (t * n_features + i) 0 * sequence.getD (t * n_features + i) 0)
        / variances.getD (j * n_features + i) 0
    + lv.getD (j * n_features + i) 0)

/-- The value the kernel stores for frame `t` and state `j`. -/
def logLikValue {F : Type} [Field F] (sequence variances mov m2ov lv : List F)
    (n_features t j : Nat) : F :=
  -0.5 * ((n_features : F) * log_M_2_PI
    + tempSum sequence variances mov m2ov lv n_features t j n_features)

/-- The row-major buffer `a` of a `K × D` array holds `V s' f'` at every position that a
loop nest over `(s, f)` has passed when it stands at `(s, f)`. -/
def Filled {F : Type} (a : List F) (K D : Nat) (V : Nat → Nat → F) (s f : Nat) : Prop :=
  a.length = K * D ∧ ∀ s' f', f' < D → (s' < s ∨ (s' = s ∧ f' < f)) →
    a[s' * D + f']? = some (V s' f')

/-- The three cache arrays have extents `K × D` and are filled up to position `(s, f)`. -/
def CacheFilled {F : Type} [Field F] (log : F → F) (means variances : Array2D F) (K D : Nat)
    (c : Cache F) (s f : Nat) : Prop :=
  (c.logVariances.rows = K ∧ c.logVariances.cols = D ∧
    Filled c.logVariances.data K D
      (fun s f => log (variances.data.getD (s * D + f) 0)) s f) ∧
  (c.meansOverVariances.rows = K ∧ c.meansOverVariances.cols = D ∧
    Filled c.meansOverVariances.data K D
      (fun s f => means.data.getD (s * D + f) 0 / variances.data.getD (s * D + f) 0) s f) ∧
  (c.means2OverVariances.rows = K ∧ c.means2OverVariances.cols = D ∧
    Filled c.means2OverVariances.data K D
      (fun s f => (means.data.getD (s * D + f) 0 * means.data.getD (s * D + f) 0)
        / variances.data.getD (s * D + f) 0) s f)

/-- Modelled from the spec: the class `DiagonalGaussianHMMSufficientStats`, declared in a header
that is not part of the sources. The spec's data model gives it `occupancy[K]`, `obsSum[K][D]`,
`obsSquaredSum[K][D]`, the transition counts and a running total log-likelihood; the entries are
kept here as maps from indices to values. -/
structure DiagonalGaussianHMMSufficientStats (F : Type) where
  occupancy : Nat → F
  obsSum : Nat → Nat → F
  obsSquaredSum : Nat → Nat → F
  transCounts : Nat → Nat → F
  logProb : F

/-- Modelled from the spec: the constructor `DiagonalGaussianHMMSufficientStats(numStates)`,
whose result the spec describes as "all fields zero". -/
def DiagonalGaussianHMMSufficientStats.new {F : Type} [Field F] (_numStates : Nat) :
    DiagonalGaussianHMMSufficientStats F :=
  ⟨fun _ => 0, fun _ _ => 0, fun _ _ => 0, fun _ _ => 0, 0⟩

/-- Modelled from the spec: the merge of two `SufficientStatistics`, "elementwise add of all
fields"; no merge exists in the sources. -/
def DiagonalGaussianHMMSufficientStats.merge {F : Type} [Field F]
    (a b : DiagonalGaussianHMMSufficientStats F) : DiagonalGaussianHMMSufficientStats F :=
  ⟨fun s => a.occupancy s + b.occupancy s, fun s f => a.obsSum s f + b.obsSum s f,
    fun s f => a.obsSquaredSum s f + b.obsSquaredSum s f,
    fun i j => a.transCounts i j + b.transCounts i j, a.logProb + b.logProb⟩

/-- Modelled from the spec: what the base method `HMMEstep::accumulateSufficientStats` (not part
of the sources) computes. The spec says it "updates transition-count statistics and the running
total log-likelihood from the forward/backward lattices" and gives no formula, so the two updates
are parameters; they may read the statistics and every argument of the call. -/
structure HMMEstepBase (F : Type) where
  transCounts : DiagonalGaussianHMMSufficientStats F → Array2D F → List F → Array2D F →
    Array2D F → Array2D F → Nat → Nat → F
  logProb : DiagonalGaussianHMMSufficientStats F → Array2D F → List F → Array2D F →
    Array2D F → Array2D F → F

/-- Modelled from the spec: the base method `HMMEstep::accumulateSufficientStats`; it replaces
the transition counts and the total log-likelihood and leaves the other fields as they are. -/
def HMMEstep.accumulateSufficientStats {F : Type} (base : HMMEstepBase F)
    (stats : DiagonalGaussianHMMSufficientStats F) (seq : Array2D F) (frameLogProb : List F)
    (posteriors fwdLattice bwdLattice : Array2D F) : DiagonalGaussianHMMSufficientStats F :=
  { stats with
    transCounts := base.transCounts stats seq frameLogProb posteriors fwdLattice bwdLattice
    logProb := base.logProb stats seq frameLogProb posteriors fwdLattice bwdLattice }

/-- Transposition flag of a BLAS call: the characters `"N"` and `"T"`. -/
inductive Trans where
  | N
  | T
  deriving DecidableEq, Repr

/-- One term of the inner product of `sgemm_`: `op(A)(i, l) * op(B)(l, j)` added to `acc`, the
matrices being column-major with leading dimensions `lda` and `ldb`. -/
def sgemmDot {F : Type} [Field F] (transa transb : Trans) (a : List F) (lda : Nat) (b : List F)
    (ldb : Nat) (i j : Nat) (l : Nat) (acc : F) : Except Failure F := do
  let x ← readAt a (match transa with
    | .N => i + l * lda
    | .T => l + i * lda)
  let y ← readAt b (match transb with
    | .N => l + j * ldb
    | .T => j + l * ldb)
  pure (acc + x * y)

/-- Update of `C(i, j)` by `sgemm_`: `alpha * (op(A) op(B))(i, j) + beta * C(i, j)`. -/
def sgemmEntry {F : Type} [Field F] (transa transb : Trans) (k : Nat) (alpha : F) (a : List F)
    (lda : Nat) (b : List F) (ldb : Nat) (beta : F) (ldc : Nat) (j : Nat) (i : Nat)
    (c : List F) : Except Failure (List F) := do
  let dot ← forLoop k (sgemmDot transa transb a lda b ldb i j) 0
  let old ← readAt c (i + j * ldc)
  writeAt c (i + j * ldc) (alpha * dot + beta * old)

/-- The BLAS routine `sgemm_` (external library) with its reference semantics on column-major
storage: `C := alpha * op(A) * op(B) + beta * C`, where `op(A)` is `m × k`, `op(B)` is `k × n`
and `C` is `m × n`. Returns the final contents of `c`. The routine's argument validation is not
modelled. -/
def sgemm_ {F : Type} [Field F] (transa transb : Trans) (m n k : Nat) (alpha : F) (a : List F)
    (lda : Nat) (b : List F) (ldb : Nat) (beta : F) (c : List F) (ldc : Nat) :
    Except Failure (List F) :=
  forLoop n (fun j c =>
    forLoop m (sgemmEntry transa transb k alpha a lda b ldb beta ldc j) c) c

/-- Body of the loop that prepares `seq2` (line 102): `seq2[i][j] = seq[i][j]`. -/
def seq2Step {F : Type} (seq : Array2D F) (i : Nat) (j : Nat) (seq2 : Array2D F) :
    Except Failure (Array2D F) := do
  let v ← seq.get i j
  seq2.set i j v

/-- The local arrays of `accumulateSufficientStats` when it returns. -/
structure AccumulateLocals (F : Type) where
  obs : Array2D F
  obs2 : Array2D F
  seq2 : Array2D F

/-- The part of `accumulateSufficientStats` after the base call (lines 90-109): the assertion on
the feature count, the three local arrays, the loop over `seq2` (both of its bounds are `length`)
and the two `sgemm_` calls. It returns the local arrays; `stats` is not mentioned by this part
of the source. -/
def DiagonalGaussianHMMEstep.accumulateLocals {F : Type} [Field F]
    (self : DiagonalGaussianHMMEstep F) (seq posteriors : Array2D F) :
    Except Failure (AccumulateLocals F) :=
  let alpha : F := 1.0
  let beta : F := 1.0
  let length := seq.rows
  if seq.cols ≠ self.numFeatures_ then .error .assertion
  else
    let obs : Array2D F := Array2D.zeros self.numStates_ self.numFeatures_
    let obs2 : Array2D F := Array2D.zeros self.numStates_ self.numFeatures_
    let seq2 : Array2D F := Array2D.zeros length self.numFeatures_
    do
      let seq2 ← forLoop length (fun i s => forLoop length (seq2Step seq i) s) seq2
      let obsData ← sgemm_ .N .T self.numFeatures_ self.numStates_ length alpha seq.data
        self.numFeatures_ posteriors.data self.numStates_ beta obs.data self.numFeatures_
      let obs2Data ← sgemm_ .N .T self.numFeatures_ self.numStates_ length alpha seq2.data
        self.numFeatures_ posteriors.data self.numStates_ beta obs2.data self.numFeatures_
      pure ⟨{ obs with data := obsData }, { obs2 with data := obs2Data }, seq2⟩

/-- The method `DiagonalGaussianHMMEstep::initializeSufficientStats` (lines 78-81). -/
def DiagonalGaussianHMMEstep.initializeSufficientStats {F : Type} [Field F]
    (self : DiagonalGaussianHMMEstep F) : DiagonalGaussianHMMSufficientStats F :=
  DiagonalGaussianHMMSufficientStats.new self.numStates_

/-- The method `DiagonalGaussianHMMEstep::accumulateSufficientStats` (lines 83-113): the base
call, then the emission-specific part, whose local arrays are dropped on return. The result is
`stats` as the call leaves it. -/
def DiagonalGaussianHMMEstep.accumulateSufficientStats {F : Type} [Field F]
    (self : DiagonalGaussianHMMEstep F) (base : HMMEstepBase F)
    (stats : DiagonalGaussianHMMSufficientStats F) (seq : Array2D F) (frameLogProb : List F)
    (posteriors fwdLattice bwdLattice : Array2D F) :
    Except Failure (DiagonalGaussianHMMSufficientStats F) := do
  let stats := HMMEstep.accumulateSufficientStats base stats seq frameLogProb posteriors
    fwdLattice bwdLattice
  let _ ← self.accumulateLocals seq posteriors
  pure stats

/-- The fields the emission-specific accumulation is responsible for. -/
def emissionStats {F : Type} (s : DiagonalGaussianHMMSufficientStats F) :
    (Nat → F) × (Nat → Nat → F) × (Nat → Nat → F) :=
  (s.occupancy, s.obsSum, s.obsSquaredSum)

/-- A run can only fail by an access outside an array. -/
def OnlyOutOfRange {α : Type} (r : Except Failure α) : Prop :=
  ∀ e, r = .error e → e = .outOfRange

/-- The positions of a row-major `K × D` buffer that a loop nest standing at `(s, f)` has not
passed yet hold in `a` what they hold in `a0`. -/
def Untouched {F : Type} (a a0 : List F) (D : Nat) (s f : Nat) : Prop :=
  ∀ s' f', f' < D → ¬ (s' < s ∨ (s' = s ∧ f' < f)) → a[s' * D + f']? = a0[s' * D + f']?

/-- Value `sgemm_("N", "T", m, n, k, alpha, a, m, b, n, beta, c, m)` leaves in `C(i, j)`. -/
def sgemmValue {F : Type} [Field F] (m n k : Nat) (alpha : F) (a b : List F) (beta : F)
    (c : List F) (j i : Nat) : F :=
  alpha * (∑ l in Finset.range k, a.getD (i + l * m) 0 * b.getD (j + l * n) 0)
    + beta * c.getD (i + j * m) 0

/-- Row-wise concatenation of two arrays of equal column count: the rows of `a` followed by the
rows of `b`. -/
def Array2D.vstack {F : Type} (a b : Array2D F) : Array2D F :=
  ⟨a.rows + b.rows, a.cols, a.data ++ b.data⟩

/-! ## Properties -/

theorem ok_bind {α β : Type} (a : α) (f : α → Except Failure β) :
    ((Except.ok a : Except Failure α) >>= f) = f a := rfl

theorem forLoop_inv {σ : Type} (P : Nat → σ → Prop) (n : Nat)
    (body : Nat → σ → Except Failure σ) (s : σ) (h0 : P 0 s)
    (hstep : ∀ i s, i < n → P i s → ∃ s', body i s = .ok s' ∧ P (i + 1) s') :
    ∃ s', forLoop n body s = .ok s' ∧ P n s' := by
  induction n with
  | zero => exact ⟨s, rfl, h0⟩
  | succ k ih =>
    obtain ⟨s1, h1, hp1⟩ := ih (fun i s hi hp => hstep i s (Nat.lt_succ_of_lt hi) hp)
    obtain ⟨s2, h2, hp2⟩ := hstep k s1 (Nat.lt_succ_self k) hp1
    refine ⟨s2, ?_, hp2⟩
    show (forLoop k body s >>= body k) = _
    rw [h1]; exact h2

theorem readAt_of_lt {F : Type} [Zero F] (p : List F) (i : Nat) (h : i < p.length) :
    readAt p i = .ok (p.getD i 0) := by
  simp [readAt, List.getD_eq_getElem?_getD, List.getElem?_eq_getElem h]

theorem writeAt_of_lt {F : Type} (p : List F) (i : Nat) (v : F) (h : i < p.length) :
    writeAt p i v = .ok (p.set i v) := by
  simp [writeAt, h]

theorem forLoop_eq_of_step {σ : Type} (n : Nat) (body : Nat → σ → Except Failure σ)
    (f : Nat → σ) (hstep : ∀ i, i < n → body i (f i) = .ok (f (i + 1))) :
    forLoop n body (f 0) = .ok (f n) := by
  obtain ⟨s', h, hs⟩ := forLoop_inv (fun i s => s = f i) n body (f 0) rfl
    (fun i s hi hp => ⟨f (i + 1), by rw [hp]; exact hstep i hi, rfl⟩)
  rw [h, hs]

theorem tempSum_succ {F : Type} [Field F] (sequence variances mov m2ov lv : List F)
    (n_features t j n : Nat) :
    tempSum sequence variances mov m2ov lv n_features t j (n + 1)
      = tempSum sequence variances mov m2ov lv n_features t j n
        + (m2ov.getD (j * n_features + n) 0
          - 2.0 * sequence.getD (t * n_features + n) 0 * mov.getD (j * n_features + n) 0
          + (sequence.getD (t * n_features + n) 0 * sequence.getD (t * n_features + n) 0)
              / variances.getD (j * n_features + n) 0
          + lv.getD (j * n_features + n) 0) := by
  simp only [tempSum, Finset.sum_range_succ]

theorem featureLoop_eq {F : Type} [Field F] (sequence variances mov m2ov lv : List F)
    (n_features t j : Nat) (hs : (t + 1) * n_features ≤ sequence.length)
    (hv : (j + 1) * n_features ≤ variances.length)
    (hm1 : (j + 1) * n_features ≤ mov.length)
    (hm2 : (j + 1) * n_features ≤ m2ov.length)
    (hlv : (j + 1) * n_features ≤ lv.length) :
    forLoop n_features (featureStep sequence variances mov m2ov lv n_features t j) 0
      = .ok (tempSum sequence variances mov m2ov lv n_features t j n_features) := by
  have h := forLoop_eq_of_step n_features
    (featureStep sequence variances mov m2ov lv n_features t j)
    (tempSum sequence variances mov m2ov lv n_features t j) (fun i hi => by
      have e1 : t * n_features + i < sequence.length := by
        rw [Nat.succ_mul] at hs; omega
      have e2 : j * n_features + i < variances.length := by
        rw [Nat.succ_mul] at hv; omega
      have e3 : j * n_features + i < mov.length := by
        rw [Nat.succ_mul] at hm1; omega
      have e4 : j * n_features + i < m2ov.length := by
        rw [Nat.succ_mul] at hm2; omega
      have e5 : j * n_features + i < lv.length := by
        rw [Nat.succ_mul] at hlv; omega
      simp only [featureStep, readAt_of_lt _ _ e1, readAt_of_lt _ _ e2, readAt_of_lt _ _ e3,
        readAt_of_lt _ _ e4, readAt_of_lt _ _ e5, tempSum_succ]
      rfl)
  simpa [tempSum] using h

theorem stateStep_eq {F : Type} [Field F] (sequence variances mov m2ov lv : List F)
    (n_states n_features t j : Nat) (out : List F)
    (hs : (t + 1) * n_features ≤ sequence.length)
    (hv : (j + 1) * n_features ≤ variances.length)
    (hm1 : (j + 1) * n_features ≤ mov.length)
    (hm2 : (j + 1) * n_features ≤ m2ov.length)
    (hlv : (j + 1) * n_features ≤ lv.length)
    (ho : t * n_states + j < out.length) :
    stateStep sequence variances mov m2ov lv n_states n_features t j out
      = .ok (out.set (t * n_states + j)
          (logLikValue sequence variances mov m2ov lv n_features t j)) := by
  simp only [stateStep, featureLoop_eq sequence variances mov m2ov lv n_features t j hs hv hm1
    hm2 hlv]
  exact writeAt_of_lt _ _ _ ho

theorem mul_succ_le_of_lt (j K D : Nat) (h : j < K) : (j + 1) * D ≤ K * D :=
  Nat.mul_le_mul_right D h

/-- Running the kernel on buffers of the right sizes succeeds, keeps the output size and stores
`logLikValue t j` at flat index `t * n_states + j`. -/
theorem gaussian_loglikelihood_diag_spec {F : Type} [Field F]
    (sequence means variances mov m2ov lv : List F) (T K D : Nat) (out0 : List F)
    (hs : sequence.length = T * D) (hv : variances.length = K * D)
    (hm1 : mov.length = K * D) (hm2 : m2ov.length = K * D) (hlv : lv.length = K * D)
    (ho : out0.length = T * K) :
    ∃ out, gaussian_loglikelihood_diag sequence means variances mov m2ov lv T K D out0 = .ok out
      ∧ out.length = T * K
      ∧ ∀ t j, t < T → j < K →
          out[t * K + j]? = some (logLikValue sequence variances mov m2ov lv D t j) := by
  unfold gaussian_loglikelihood_diag
  obtain ⟨out, h, hlen, hval⟩ := forLoop_inv
    (fun t (o : List F) => o.length = T * K ∧ ∀ t' j, t' < t → j < K →
      o[t' * K + j]? = some (logLikValue sequence variances mov m2ov lv D t' j))
    T _ out0 ⟨ho, fun t' j ht => absurd ht (Nat.not_lt_zero _)⟩
    (fun t o ht hP => by
      obtain ⟨hol, hov⟩ := hP
      obtain ⟨o', h', hl', hv'⟩ := forLoop_inv
        (fun j (o : List F) => o.length = T * K ∧ ∀ t' j', j' < K → (t' < t ∨ (t' = t ∧ j' < j)) →
          o[t' * K + j']? = some (logLikValue sequence variances mov m2ov lv D t' j'))
        K (stateStep sequence variances mov m2ov lv K D t) o
        ⟨hol, fun t' j' hj' hc => by
          rcases hc with hc | ⟨_, hc⟩
          · exact hov t' j' hc hj'
          · exact absurd hc (Nat.not_lt_zero _)⟩
        (fun j o1 hj hP1 => by
          obtain ⟨h1l, h1v⟩ := hP1
          have hidx : t * K + j < o1.length := by
            have := mul_succ_le_of_lt t T K ht
            rw [Nat.succ_mul] at this; omega
          refine ⟨_, stateStep_eq sequence variances mov m2ov lv K D t j o1
            (by rw [hs]; exact mul_succ_le_of_lt t T D ht)
            (by rw [hv]; exact mul_succ_le_of_lt j K D hj)
            (by rw [hm1]; exact mul_succ_le_of_lt j K D hj)
            (by rw [hm2]; exact mul_succ_le_of_lt j K D hj)
            (by rw [hlv]; exact mul_succ_le_of_lt j K D hj) hidx, ?_, ?_⟩
          · simpa using h1l
          · intro t' j' hj' hc
            by_cases heq : t' = t ∧ j' = j
            · obtain ⟨rfl, rfl⟩ := heq
              simp [List.getElem?_set, hidx]
            · have hne : t * K + j ≠ t' * K + j' := by
                intro he
                apply heq
                rcases Nat.lt_trichotomy t' t with hlt | hlt | hlt
                · have := mul_succ_le_of_lt t' t K hlt
                  rw [Nat.succ_mul] at this; omega
                · subst hlt; exact ⟨rfl, by omega⟩
                · have := mul_succ_le_of_lt t t' K hlt
                  rw [Nat.succ_mul] at this; omega
              rw [List.getElem?_set_ne hne]
              apply h1v t' j' hj'
              rcases hc with hc | ⟨hc1, hc2⟩
              · exact Or.inl hc
              · refine Or.inr ⟨hc1, ?_⟩
                rcases Nat.lt_succ_iff_lt_or_eq.mp hc2 with h | h
                · exact h
                · exact absurd ⟨hc1, h⟩ heq)
      refine ⟨o', h', hl', fun t' j' ht' hj' => hv' t' j' hj' ?_⟩
      rcases Nat.lt_succ_iff_lt_or_eq.mp ht' with h | h
      · exact Or.inl h
      · exact Or.inr ⟨h, hj'⟩)
  exact ⟨out, h, hlen, hval⟩

theorem Filled.start {F : Type} (a : List F) (K D : Nat) (V : Nat → Nat → F)
    (h : a.length = K * D) : Filled a K D V 0 0 :=
  ⟨h, fun _ _ _ hc => by
    rcases hc with hc | ⟨_, hc⟩ <;> exact absurd hc (Nat.not_lt_zero _)⟩

theorem Filled.index_lt {F : Type} {a : List F} {K D : Nat} {V : Nat → Nat → F} {s f : Nat}
    (h : Filled a K D V s f) (hs : s < K) (hf : f < D) : s * D + f < a.length := by
  have := mul_succ_le_of_lt s K D hs
  rw [Nat.succ_mul] at this
  rw [h.1]; omega

theorem Filled.write {F : Type} {a : List F} {K D : Nat} {V : Nat → Nat → F} {s f : Nat}
    (h : Filled a K D V s f) (hs : s < K) (hf : f < D) :
    Filled (a.set (s * D + f) (V s f)) K D V s (f + 1) := by
  have hidx := h.index_lt hs hf
  refine ⟨by simpa using h.1, fun s' f' hf' hc => ?_⟩
  by_cases heq : s' = s ∧ f' = f
  · obtain ⟨rfl, rfl⟩ := heq
    simp [List.getElem?_set, hidx]
  · have hne : s * D + f ≠ s' * D + f' := by
      intro he
      apply heq
      rcases Nat.lt_trichotomy s' s with hlt | hlt | hlt
      · have := mul_succ_le_of_lt s' s D hlt
        rw [Nat.succ_mul] at this; omega
      · subst hlt; exact ⟨rfl, by omega⟩
      · have := mul_succ_le_of_lt s s' D hlt
        rw [Nat.succ_mul] at this; omega
    rw [List.getElem?_set_ne hne]
    apply h.2 s' f' hf'
    rcases hc with hc | ⟨hc1, hc2⟩
    · exact Or.inl hc
    · refine Or.inr ⟨hc1, ?_⟩
      rcases Nat.lt_succ_iff_lt_or_eq.mp hc2 with h' | h'
      · exact h'
      · exact absurd ⟨hc1, h'⟩ heq

theorem Filled.next_row {F : Type} {a : List F} {K D : Nat} {V : Nat → Nat → F} {s : Nat}
    (h : Filled a K D V s D) : Filled a K D V (s + 1) 0 :=
  ⟨h.1, fun s' f' hf' hc => h.2 s' f' hf' (by
    rcases hc with hc | ⟨_, hc⟩
    · rcases Nat.lt_succ_iff_lt_or_eq.mp hc with h' | h'
      · exact Or.inl h'
      · exact Or.inr ⟨h', hf'⟩
    · exact absurd hc (Nat.not_lt_zero _))⟩

theorem Filled.entry {F : Type} {a : List F} {K D : Nat} {V : Nat → Nat → F} {n : Nat}
    (h : Filled a K D V n 0) {s f : Nat} (hs : s < n) (hf : f < D) :
    a[s * D + f]? = some (V s f) :=
  h.2 s f hf (Or.inl hs)

theorem Array2D.get_of_lt {F : Type} [Zero F] (a : Array2D F) (i j : Nat) (hwf : a.WF)
    (hi : i < a.rows) (hj : j < a.cols) :
    a.get i j = .ok (a.data.getD (i * a.cols + j) 0) := by
  have : i * a.cols + j < a.data.length := by
    have := mul_succ_le_of_lt i a.rows a.cols hi
    rw [Nat.succ_mul] at this
    rw [hwf]; omega
  simp [Array2D.get, hi, hj, readAt_of_lt _ _ this]

theorem Array2D.set_of_lt {F : Type} (a : Array2D F) (i j : Nat) (v : F)
    (hi : i < a.rows) (hj : j < a.cols) (hidx : i * a.cols + j < a.data.length) :
    a.set i j v = .ok { a with data := a.data.set (i * a.cols + j) v } := by
  simp [Array2D.set, hi, hj, writeAt_of_lt _ _ _ hidx, Except.map]

theorem cacheStep_spec {F : Type} [Field F] (log : F → F) (means variances : Array2D F)
    (K D : Nat) (hm : means.WF) (hmr : means.rows = K) (hmc : means.cols = D)
    (hv : variances.WF) (hvr : variances.rows = K) (hvc : variances.cols = D)
    (c : Cache F) (s f : Nat) (hs : s < K) (hf : f < D)
    (hc : CacheFilled log means variances K D c s f) :
    ∃ c', cacheStep log means variances s f c = .ok c'
      ∧ CacheFilled log means variances K D c' s (f + 1) := by
  obtain ⟨⟨a1, a2, a3⟩, ⟨b1, b2, b3⟩, ⟨c1, c2, c3⟩⟩ := hc
  have gm := means.get_of_lt s f hm (hmr ▸ hs) (hmc ▸ hf)
  have gv := variances.get_of_lt s f hv (hvr ▸ hs) (hvc ▸ hf)
  rw [hmc] at gm
  rw [hvc] at gv
  have s1 := c.logVariances.set_of_lt s f (log (variances.data.getD (s * D + f) 0))
    (a1 ▸ hs) (a2 ▸ hf) (by rw [a2]; exact a3.index_lt hs hf)
  have s2 := c.meansOverVariances.set_of_lt s f
    (means.data.getD (s * D + f) 0 / variances.data.getD (s * D + f) 0)
    (b1 ▸ hs) (b2 ▸ hf) (by rw [b2]; exact b3.index_lt hs hf)
  have s3 := c.means2OverVariances.set_of_lt s f
    ((means.data.getD (s * D + f) 0 * means.data.getD (s * D + f) 0)
      / variances.data.getD (s * D + f) 0)
    (c1 ▸ hs) (c2 ▸ hf) (by rw [c2]; exact c3.index_lt hs hf)
  refine ⟨⟨⟨c.logVariances.rows, c.logVariances.cols,
      List.set c.logVariances.data (s * c.logVariances.cols + f)
        (log (variances.data.getD (s * D + f) 0))⟩,
    ⟨c.meansOverVariances.rows, c.meansOverVariances.cols,
      List.set c.meansOverVariances.data (s * c.meansOverVariances.cols + f)
        (means.data.getD (s * D + f) 0 / variances.data.getD (s * D + f) 0)⟩,
    ⟨c.means2OverVariances.rows, c.means2OverVariances.cols,
      List.set c.means2OverVariances.data (s * c.means2OverVariances.cols + f)
        ((means.data.getD (s * D + f) 0 * means.data.getD (s * D + f) 0)
          / variances.data.getD (s * D + f) 0)⟩⟩, ?_, ?_⟩
  · simp only [cacheStep, gm, gv, s1, s2, s3, ok_bind]
    rfl
  · refine ⟨⟨a1, a2, ?_⟩, ⟨b1, b2, ?_⟩, ⟨c1, c2, ?_⟩⟩
    · simpa [a2] using a3.write hs hf
    · simpa [b2] using b3.write hs hf
    · simpa [c2] using c3.write hs hf

theorem CacheFilled.row_done {F : Type} [Field F] {log : F → F} {means variances : Array2D F}
    {K D : Nat} {c : Cache F} {s : Nat} (h : CacheFilled log means variances K D c s D) :
    CacheFilled log means variances K D c (s + 1) 0 :=
  ⟨⟨h.1.1, h.1.2.1, h.1.2.2.next_row⟩, ⟨h.2.1.1, h.2.1.2.1, h.2.1.2.2.next_row⟩,
    ⟨h.2.2.1, h.2.2.2.1, h.2.2.2.2.next_row⟩⟩

/-- The constructor succeeds on arguments of the declared shape and leaves a filled cache. -/
theorem new_spec {F : Type} [Field F] (log : F → F) (K : Nat) (transmat : Array2D F)
    (startProb : List F) (D : Nat) (means variances : Array2D F)
    (hm : means.WF) (hmr : means.rows = K) (hmc : means.cols = D)
    (hv : variances.WF) (hvr : variances.rows = K) (hvc : variances.cols = D) :
    ∃ c : Cache F, DiagonalGaussianHMMEstep.new log K transmat startProb D means variances
        = .ok ⟨K, transmat, startProb, D, means, variances, c.logVariances,
            c.meansOverVariances, c.means2OverVariances⟩
      ∧ CacheFilled log means variances K D c K 0 := by
  have hlen : (List.replicate (K * D) (0 : F)).length = K * D := List.length_replicate _ _
  obtain ⟨c, hc, hP⟩ := forLoop_inv
    (fun s (c : Cache F) => CacheFilled log means variances K D c s 0) K
    (fun i c => forLoop D (cacheStep log means variances i) c)
    ⟨Array2D.zeros K D, Array2D.zeros K D, Array2D.zeros K D⟩
    ⟨⟨rfl, rfl, Filled.start _ K D _ hlen⟩, ⟨rfl, rfl, Filled.start _ K D _ hlen⟩,
      ⟨rfl, rfl, Filled.start _ K D _ hlen⟩⟩
    (fun s c hs hP => by
      obtain ⟨c', hc', hP'⟩ := forLoop_inv
        (fun f (c : Cache F) => CacheFilled log means variances K D c s f) D
        (cacheStep log means variances s) c hP
        (fun f c hf hP => cacheStep_spec log means variances K D hm hmr hmc hv hvr hvc c s f
          hs hf hP)
      exact ⟨c', hc', hP'.row_done⟩)
  refine ⟨c, ?_, hP⟩
  unfold DiagonalGaussianHMMEstep.new
  simp only [hmr, hmc, hvr, hvc, ne_eq, not_true_eq_false, or_self, if_false, hc, ok_bind]
  rfl

/-- On a model whose arrays hold `K * D` elements and a sequence of `D` columns the method
succeeds and returns a `T × K` array whose flat entry `t * K + j` is `logLikValue t j`. -/
theorem emission_spec {F : Type} [Field F] (self : DiagonalGaussianHMMEstep F) (X : Array2D F)
    (hX : X.WF) (hXc : X.cols = self.numFeatures_)
    (hv : self.variances_.data.length = self.numStates_ * self.numFeatures_)
    (hm1 : self.meansOverVariances_.data.length = self.numStates_ * self.numFeatures_)
    (hm2 : self.means2OverVariances_.data.length = self.numStates_ * self.numFeatures_)
    (hlv : self.logVariances_.data.length = self.numStates_ * self.numFeatures_) :
    ∃ out : List F, self.emissionLogLikelihood X = .ok ⟨X.rows, self.numStates_, out⟩
      ∧ out.length = X.rows * self.numStates_
      ∧ ∀ t j, t < X.rows → j < self.numStates_ →
          out[t * self.numStates_ + j]? = some (logLikValue X.data self.variances_.data
            self.meansOverVariances_.data self.means2OverVariances_.data
            self.logVariances_.data self.numFeatures_ t j) := by
  obtain ⟨out, h, hl, hval⟩ := gaussian_loglikelihood_diag_spec X.data self.means_.data
    self.variances_.data self.meansOverVariances_.data self.means2OverVariances_.data
    self.logVariances_.data X.rows self.numStates_ self.numFeatures_
    (Array2D.zeros X.rows self.numStates_).data (by rw [← hXc]; exact hX) hv hm1 hm2 hlv
    (List.length_replicate _ _)
  refine ⟨out, ?_, hl, hval⟩
  unfold DiagonalGaussianHMMEstep.emissionLogLikelihood
  simp only [h, ok_bind]
  rfl

theorem getD_of_getElem? {F : Type} [Zero F] {l : List F} {i : Nat} {v : F}
    (h : l[i]? = some v) : l.getD i 0 = v := by
  simp [List.getD_eq_getElem?_getD, h]

theorem Array2D.get_eq_of_getElem? {F : Type} (a : Array2D F) (i j : Nat) (v : F)
    (hi : i < a.rows) (hj : j < a.cols) (h : a.data[i * a.cols + j]? = some v) :
    a.get i j = .ok v := by
  simp [Array2D.get, hi, hj, readAt, h]

/-- C4: for a sequence `X` of `T` rows and `D` columns and any cache contents (arrays of
`K * D` elements, arbitrary values), `emissionLogLikelihood X` returns a matrix of exactly `T`
rows and `K` columns whose entry `[t][j]`, stored at flat index `t * K + j`, is
`-0.5 * (D * c + Σ_{f<D} (m2[j*D+f] - 2 * X[t][f] * m1[j*D+f] + X[t][f]^2 / v[j*D+f] + lv[j*D+f]))`
with `c = log_M_2_PI`; for `T = 0` the result is empty. -/
theorem emissionLogLikelihood_entries (self : DiagonalGaussianHMMEstep ℝ) (X : Array2D ℝ)
    (hX : X.WF) (hXc : X.cols = self.numFeatures_)
    (hv : self.variances_.data.length = self.numStates_ * self.numFeatures_)
    (hm1 : self.meansOverVariances_.data.length = self.numStates_ * self.numFeatures_)
    (hm2 : self.means2OverVariances_.data.length = self.numStates_ * self.numFeatures_)
    (hlv : self.logVariances_.data.length = self.numStates_ * self.numFeatures_) :
    ∃ out : Array2D ℝ, self.emissionLogLikelihood X = .ok out
      ∧ out.rows = X.rows ∧ out.cols = self.numStates_ ∧ out.WF
      ∧ (∀ t j, t < X.rows → j < self.numStates_ →
          out.data[t * self.numStates_ + j]? = some
            (-0.5 * ((self.numFeatures_ : ℝ) * log_M_2_PI
              + ∑ f in Finset.range self.numFeatures_,
                (self.means2OverVariances_.data.getD (j * self.numFeatures_ + f) 0
                  - 2 * X.entry t f
                      * self.meansOverVariances_.data.getD (j * self.numFeatures_ + f) 0
                  + X.entry t f ^ 2 / self.variances_.data.getD (j * self.numFeatures_ + f) 0
                  + self.logVariances_.data.getD (j * self.numFeatures_ + f) 0))))
      ∧ (X.rows = 0 → out.data = []) := by
  obtain ⟨out, h, hl, hval⟩ := emission_spec self X hX hXc hv hm1 hm2 hlv
  refine ⟨⟨X.rows, self.numStates_, out⟩, h, rfl, rfl, hl, ?_, ?_⟩
  · intro t j ht hj
    rw [hval t j ht hj]
    congr 1
    unfold logLikValue tempSum Array2D.entry
    rw [hXc]
    congr 2
    refine Finset.sum_congr rfl (fun f _ => ?_)
    norm_num
    ring
  · intro h0
    have : out.length = 0 := by rw [hl, h0, Nat.zero_mul]
    exact List.length_eq_zero.mp this

/-- Witness of C4: one state, one feature, a cache that matches no Gaussian
(`m2 = 5`, `m1 = 3`, `v = 4`, `lv = 7`) and the single frame `x = 2`. -/
theorem emissionLogLikelihood_entries_witness :
    ∃ out : Array2D ℝ,
      (⟨1, ⟨0, 0, []⟩, [], 1, ⟨1, 1, [2]⟩, ⟨1, 1, [4]⟩, ⟨1, 1, [7]⟩, ⟨1, 1, [3]⟩,
        ⟨1, 1, [5]⟩⟩ : DiagonalGaussianHMMEstep ℝ).emissionLogLikelihood ⟨1, 1, [2]⟩ = .ok out
      ∧ out.rows = 1 ∧ out.cols = 1 ∧ out.WF
      ∧ out.data[0]? = some ((-0.5 : ℝ) * (log_M_2_PI + 1)) := by
  obtain ⟨out, h, hr, hc, hwf, hval, _⟩ := emissionLogLikelihood_entries
    (⟨1, ⟨0, 0, []⟩, [], 1, ⟨1, 1, [2]⟩, ⟨1, 1, [4]⟩, ⟨1, 1, [7]⟩, ⟨1, 1, [3]⟩, ⟨1, 1, [5]⟩⟩ :
      DiagonalGaussianHMMEstep ℝ) ⟨1, 1, [2]⟩ rfl rfl rfl rfl rfl rfl
  refine ⟨out, h, hr, hc, hwf, ?_⟩
  have h00 := hval 0 0 (by decide) (by decide)
  rw [show (0 : Nat) * 1 + 0 = 0 from rfl] at h00
  rw [h00]
  norm_num [Array2D.entry]

theorem WF.length_eq {F : Type} {a : Array2D F} {K D : Nat} (h : a.WF) (hr : a.rows = K)
    (hc : a.cols = D) : a.data.length = K * D := by
  rw [← hr, ← hc]; exact h

/-- C3: after a successful construction from `means` and `variances` of shape `(K, D)` the
stored means and variances are the arguments and, for every state `s < K` and feature `f < D`,
`logVariances[s][f] = ln(variances[s][f])`,
`meansOverVariances[s][f] = means[s][f] / variances[s][f]` and
`means2OverVariances[s][f] = means[s][f]^2 / variances[s][f]`. -/
theorem new_cache_consistent (K D : Nat) (transmat : Array2D ℝ) (startProb : List ℝ)
    (means variances : Array2D ℝ)
    (hm : means.WF) (hmr : means.rows = K) (hmc : means.cols = D)
    (hv : variances.WF) (hvr : variances.rows = K) (hvc : variances.cols = D) :
    ∃ m, DiagonalGaussianHMMEstep.new Real.log K transmat startProb D means variances = .ok m
      ∧ m.numStates_ = K ∧ m.numFeatures_ = D ∧ m.means_ = means ∧ m.variances_ = variances
      ∧ ∀ s f, s < K → f < D →
          m.logVariances_.get s f = .ok (Real.log (variances.entry s f))
          ∧ m.meansOverVariances_.get s f = .ok (means.entry s f / variances.entry s f)
          ∧ m.means2OverVariances_.get s f
              = .ok (means.entry s f ^ 2 / variances.entry s f) := by
  obtain ⟨c, hnew, ⟨a1, a2, a3⟩, ⟨b1, b2, b3⟩, ⟨c1, c2, c3⟩⟩ :=
    new_spec Real.log K transmat startProb D means variances hm hmr hmc hv hvr hvc
  refine ⟨_, hnew, rfl, rfl, rfl, rfl, fun s f hs hf => ⟨?_, ?_, ?_⟩⟩
  · apply Array2D.get_eq_of_getElem? _ _ _ _ (a1 ▸ hs) (a2 ▸ hf)
    show c.logVariances.data[s * c.logVariances.cols + f]? = _
    rw [a2, a3.entry hs hf, Array2D.entry, hvc]
  · apply Array2D.get_eq_of_getElem? _ _ _ _ (b1 ▸ hs) (b2 ▸ hf)
    show c.meansOverVariances.data[s * c.meansOverVariances.cols + f]? = _
    rw [b2, b3.entry hs hf, Array2D.entry, Array2D.entry, hvc, hmc]
  · apply Array2D.get_eq_of_getElem? _ _ _ _ (c1 ▸ hs) (c2 ▸ hf)
    show c.means2OverVariances.data[s * c.means2OverVariances.cols + f]? = _
    rw [c2, c3.entry hs hf, Array2D.entry, Array2D.entry, hvc, hmc, sq]

/-- Witness of C3: one state, two features, means `(2, -3)`, variances `(4, 1)`. -/
theorem new_cache_consistent_witness :
    ∃ m, DiagonalGaussianHMMEstep.new Real.log 1 ⟨0, 0, []⟩ [] 2 ⟨1, 2, [2, -3]⟩ ⟨1, 2, [4, 1]⟩
        = .ok m
      ∧ m.means_ = ⟨1, 2, [2, -3]⟩ ∧ m.variances_ = ⟨1, 2, [4, 1]⟩
      ∧ m.logVariances_.get 0 1 = .ok 0
      ∧ m.meansOverVariances_.get 0 1 = .ok (-3)
      ∧ m.means2OverVariances_.get 0 1 = .ok 9 := by
  obtain ⟨m, h, _, _, hm, hv, hc⟩ := new_cache_consistent 1 2 ⟨0, 0, []⟩ []
    ⟨1, 2, [2, -3]⟩ ⟨1, 2, [4, 1]⟩ rfl rfl rfl rfl rfl rfl
  obtain ⟨h1, h2, h3⟩ := hc 0 1 (by decide) (by decide)
  refine ⟨m, h, hm, hv, ?_, ?_, ?_⟩
  · rw [h1]; norm_num [Array2D.entry]
  · rw [h2]; norm_num [Array2D.entry]
  · rw [h3]; norm_num [Array2D.entry]

/-- C2: with declared counts `K` and `D` the constructor throws (the shape-mismatch
`MixtapeException`) if and only if `means` or `variances` does not have shape `(K, D)`; in
particular `means` of shape `(K, D)` with `variances` of shape `(K, D + 1)` throws and no model
results; and arguments of the right shape always give a model, whatever their values. -/
theorem new_throws_iff_shape_mismatch (K D : Nat) (transmat : Array2D ℝ) (startProb : List ℝ)
    (means variances : Array2D ℝ) (hm : means.WF) (hv : variances.WF) :
    ((∃ msg, DiagonalGaussianHMMEstep.new Real.log K transmat startProb D means variances
          = .error (.exception msg))
        ↔ (¬ (means.rows = K ∧ means.cols = D) ∨ ¬ (variances.rows = K ∧ variances.cols = D)))
    ∧ ((means.rows = K ∧ means.cols = D) → (variances.rows = K ∧ variances.cols = D + 1) →
        ∃ msg, DiagonalGaussianHMMEstep.new Real.log K transmat startProb D means variances
          = .error (.exception msg))
    ∧ ((means.rows = K ∧ means.cols = D) → (variances.rows = K ∧ variances.cols = D) →
        ∃ m, DiagonalGaussianHMMEstep.new Real.log K transmat startProb D means variances
          = .ok m) := by
  have hbad : (¬ (means.rows = K ∧ means.cols = D) ∨ ¬ (variances.rows = K ∧ variances.cols = D))
      → ∃ msg, DiagonalGaussianHMMEstep.new Real.log K transmat startProb D means variances
          = .error (.exception msg) := by
    intro h
    unfold DiagonalGaussianHMMEstep.new
    by_cases h1 : K ≠ means.rows ∨ D ≠ means.cols
    · exact ⟨"means has wrong shape", by simp only [if_pos h1]⟩
    · by_cases h2 : K ≠ variances.rows ∨ D ≠ variances.cols
      · exact ⟨"variances has wrong shape", by simp only [if_neg h1, if_pos h2]⟩
      · exfalso
        rcases h with h | h
        · exact h1 (by by_contra hc; push_neg at hc; exact h ⟨hc.1.symm, hc.2.symm⟩)
        · exact h2 (by by_contra hc; push_neg at hc; exact h ⟨hc.1.symm, hc.2.symm⟩)
  have hgood : (means.rows = K ∧ means.cols = D) → (variances.rows = K ∧ variances.cols = D) →
      ∃ m, DiagonalGaussianHMMEstep.new Real.log K transmat startProb D means variances
        = .ok m := by
    intro h1 h2
    obtain ⟨c, hnew, _⟩ :=
      new_spec Real.log K transmat startProb D means variances hm h1.1 h1.2 hv h2.1 h2.2
    exact ⟨_, hnew⟩
  refine ⟨⟨fun ⟨msg, hmsg⟩ => ?_, hbad⟩, fun _ h2 => hbad (Or.inr ?_), hgood⟩
  · by_contra hc
    push_neg at hc
    obtain ⟨m, hok⟩ := hgood hc.1 hc.2
    rw [hok] at hmsg
    exact Except.noConfusion hmsg
  · intro hc
    have := h2.2.symm.trans hc.2
    omega

/-- Witness of C2: a `1 × 1` model with mean 0 and variance 0 is accepted, while variances of
shape `(1, 2)` against means of shape `(1, 1)` are refused. -/
theorem new_throws_iff_shape_mismatch_witness :
    (∃ m, DiagonalGaussianHMMEstep.new Real.log 1 ⟨0, 0, []⟩ [] 1 ⟨1, 1, [0]⟩ ⟨1, 1, [0]⟩ = .ok m)
    ∧ (∃ msg, DiagonalGaussianHMMEstep.new Real.log 1 ⟨0, 0, []⟩ [] 1 ⟨1, 1, [0]⟩ ⟨1, 2, [1, 1]⟩
        = .error (.exception msg)) :=
  ⟨(new_throws_iff_shape_mismatch 1 1 ⟨0, 0, []⟩ [] ⟨1, 1, [0]⟩ ⟨1, 1, [0]⟩ rfl rfl).2.2
      ⟨rfl, rfl⟩ ⟨rfl, rfl⟩,
    (new_throws_iff_shape_mismatch 1 1 ⟨0, 0, []⟩ [] ⟨1, 1, [0]⟩ ⟨1, 2, [1, 1]⟩ rfl rfl).2.1
      ⟨rfl, rfl⟩ ⟨rfl, rfl⟩⟩

/-- On a model produced by the constructor the stored value is the Gaussian log density. -/
theorem logLikValue_constructed (means variances : Array2D ℝ) (X : Array2D ℝ) (K D : Nat)
    (c : Cache ℝ) (hmc : means.cols = D) (hvc : variances.cols = D) (hXc : X.cols = D)
    (hc : CacheFilled Real.log means variances K D c K 0) (t j : Nat) (hj : j < K) :
    logLikValue X.data variances.data c.meansOverVariances.data c.means2OverVariances.data
        c.logVariances.data D t j
      = -0.5 * ∑ f in Finset.range D,
          ((X.entry t f - means.entry j f) ^ 2 / variances.entry j f
            + Real.log (variances.entry j f) + log_M_2_PI) := by
  obtain ⟨⟨_, _, a3⟩, ⟨_, _, b3⟩, ⟨_, _, c3⟩⟩ := hc
  unfold logLikValue tempSum
  conv_rhs => rw [Finset.sum_add_distrib, Finset.sum_const, Finset.card_range, nsmul_eq_mul]
  rw [add_comm ((D : ℝ) * log_M_2_PI)]
  congr 2
  refine Finset.sum_congr rfl (fun f hf => ?_)
  have hf' : f < D := Finset.mem_range.mp hf
  rw [getD_of_getElem? (a3.entry hj hf'), getD_of_getElem? (b3.entry hj hf'),
    getD_of_getElem? (c3.entry hj hf')]
  simp only [Array2D.entry, hmc, hvc, hXc]
  norm_num
  ring

/-- C1: for a model built by the constructor from `K × D` means and strictly positive `K × D`
variances, a sequence `X` of `T` frames with `D` features, and `t < T`, `j < K`, the entry
`emissionLogLikelihood(X)[t][j]` is the diagonal-Gaussian log density
`-0.5 * Σ_f ((X[t][f] - means[j][f])^2 / variances[j][f] + ln(variances[j][f]) + c)` with
`c = log_M_2_PI`, over the reals. -/
theorem emissionLogLikelihood_eq_gaussian_logpdf (K D : Nat) (transmat : Array2D ℝ)
    (startProb : List ℝ) (means variances X : Array2D ℝ)
    (hm : means.WF) (hmr : means.rows = K) (hmc : means.cols = D)
    (hv : variances.WF) (hvr : variances.rows = K) (hvc : variances.cols = D)
    (_hpos : ∀ s f, s < K → f < D → 0 < variances.entry s f)
    (hX : X.WF) (hXc : X.cols = D) (t j : Nat) (ht : t < X.rows) (hj : j < K) :
    ∃ m out, DiagonalGaussianHMMEstep.new Real.log K transmat startProb D means variances = .ok m
      ∧ m.emissionLogLikelihood X = .ok out
      ∧ out.get t j = .ok (-0.5 * ∑ f in Finset.range D,
          ((X.entry t f - means.entry j f) ^ 2 / variances.entry j f
            + Real.log (variances.entry j f) + log_M_2_PI)) := by
  obtain ⟨c, hnew, hc⟩ :=
    new_spec Real.log K transmat startProb D means variances hm hmr hmc hv hvr hvc
  obtain ⟨out, hout, _, hval⟩ := emission_spec
    (⟨K, transmat, startProb, D, means, variances, c.logVariances, c.meansOverVariances,
      c.means2OverVariances⟩ : DiagonalGaussianHMMEstep ℝ) X hX hXc
    (WF.length_eq hv hvr hvc) hc.2.1.2.2.1 hc.2.2.2.2.1 hc.1.2.2.1
  refine ⟨_, _, hnew, hout, ?_⟩
  apply Array2D.get_eq_of_getElem? (⟨X.rows, K, out⟩ : Array2D ℝ) t j _ ht hj
  rw [← logLikValue_constructed means variances X K D c hmc hvc hXc hc t j hj]
  exact hval t j ht hj

/-- Witness of C1: `K = 1`, `D = 1`, mean 2, variance 4, `x = 2` gives `-0.5 * (c + ln 4)`. -/
theorem emissionLogLikelihood_eq_gaussian_logpdf_witness :
    ∃ m out, DiagonalGaussianHMMEstep.new Real.log 1 ⟨0, 0, []⟩ [] 1 ⟨1, 1, [2]⟩ ⟨1, 1, [4]⟩
        = .ok m
      ∧ m.emissionLogLikelihood ⟨1, 1, [2]⟩ = .ok out
      ∧ out.get 0 0 = .ok ((-0.5 : ℝ) * (log_M_2_PI + Real.log 4)) := by
  obtain ⟨m, out, h1, h2, h3⟩ := emissionLogLikelihood_eq_gaussian_logpdf 1 1 ⟨0, 0, []⟩ []
    ⟨1, 1, [2]⟩ ⟨1, 1, [4]⟩ ⟨1, 1, [2]⟩ rfl rfl rfl rfl rfl rfl
    (fun s f hs hf => by
      obtain rfl : s = 0 := by omega
      obtain rfl : f = 0 := by omega
      norm_num [Array2D.entry])
    rfl rfl 0 0 (by decide) (by decide)
  refine ⟨m, out, h1, h2, ?_⟩
  rw [h3]
  norm_num [Array2D.entry]
  ring

theorem log_two_pi_gt : (1.837876 : ℝ) < Real.log (2 * Real.pi) := by
  rw [Real.lt_log_iff_exp_lt (by positivity)]
  have h1 : Real.exp 1.837876 = Real.exp 1 * Real.exp 0.837876 := by
    rw [← Real.exp_add]; norm_num
  have h2 := Real.exp_bound' (x := 0.837876) (by norm_num) (by norm_num) (n := 12) (by norm_num)
  have h3 := Real.exp_one_lt_d9
  have h4 := Real.pi_gt_d6
  calc Real.exp 1.837876 = Real.exp 1 * Real.exp 0.837876 := h1
    _ ≤ 2.7182818286 * ((∑ m in Finset.range 12, (0.837876 : ℝ) ^ m / m.factorial)
          + 0.837876 ^ 12 * ((12 : ℕ) + 1) / ((12 : ℕ).factorial * (12 : ℕ))) :=
        mul_le_mul h3.le h2 (Real.exp_pos _).le (by norm_num)
    _ < 2 * 3.141592 := by
        simp only [Finset.sum_range_succ, Finset.sum_range_zero, Nat.factorial]
        norm_num
    _ < 2 * Real.pi := by linarith

theorem log_two_pi_lt : Real.log (2 * Real.pi) < (1.837878 : ℝ) := by
  rw [Real.log_lt_iff_lt_exp (by positivity)]
  have h1 : Real.exp 1.837878 = Real.exp 1 * Real.exp 0.837878 := by
    rw [← Real.exp_add]; norm_num
  have h2 := Real.sum_le_exp_of_nonneg (x := 0.837878) (by norm_num) 12
  have h3 := Real.exp_one_gt_d9
  have h4 := Real.pi_lt_d6
  calc 2 * Real.pi < 2 * 3.141593 := by linarith
    _ < 2.7182818283 * (∑ m in Finset.range 12, (0.837878 : ℝ) ^ m / m.factorial) := by
        simp only [Finset.sum_range_succ, Finset.sum_range_zero, Nat.factorial]
        norm_num
    _ ≤ Real.exp 1 * Real.exp 0.837878 :=
        mul_le_mul h3.le h2 (Finset.sum_nonneg (fun i _ => by positivity)) (Real.exp_pos _).le
    _ = Real.exp 1.837878 := h1.symm

/-- C10: for the model constructed with `K = 1`, `D = 1`, mean 0 and variance 1, and every
observation `x`, the value `emissionLogLikelihood` returns is within `1e-6` of
`-0.5 * ln(2π) - 0.5 * x^2` (true real logarithm); over the reals this is the constant
`log_M_2_PI = 1.8378770664093453` lying within `2e-6` of `ln(2π)`. -/
theorem standard_normal_check (transmat : Array2D ℝ) (startProb : List ℝ) (x : ℝ) :
    ∃ m out y,
      DiagonalGaussianHMMEstep.new Real.log 1 transmat startProb 1 ⟨1, 1, [0]⟩ ⟨1, 1, [1]⟩ = .ok m
      ∧ m.emissionLogLikelihood ⟨1, 1, [x]⟩ = .ok out
      ∧ out.get 0 0 = .ok y
      ∧ |y - (-0.5 * Real.log (2 * Real.pi) - 0.5 * x ^ 2)| ≤ 1e-6
      ∧ |(log_M_2_PI : ℝ) - Real.log (2 * Real.pi)| ≤ 2e-6 := by
  have hlo := log_two_pi_gt
  have hhi := log_two_pi_lt
  have hc : |(log_M_2_PI : ℝ) - Real.log (2 * Real.pi)| ≤ 2e-6 := by
    rw [abs_le]; unfold log_M_2_PI
    constructor <;> norm_num <;> linarith
  refine ⟨⟨1, transmat, startProb, 1, ⟨1, 1, [0]⟩, ⟨1, 1, [1]⟩, ⟨1, 1, [0]⟩, ⟨1, 1, [0]⟩,
    ⟨1, 1, [0]⟩⟩, ⟨1, 1, [-0.5 * (log_M_2_PI + x * x)]⟩, -0.5 * (log_M_2_PI + x * x),
    ?_, ?_, ?_, ?_, hc⟩
  · simp [DiagonalGaussianHMMEstep.new, forLoop, cacheStep, Array2D.get, Array2D.set, readAt,
      writeAt, Array2D.zeros, bind, Except.bind, Except.map, pure, Except.pure]
  · simp [DiagonalGaussianHMMEstep.emissionLogLikelihood, gaussian_loglikelihood_diag, forLoop,
      stateStep, featureStep, readAt, writeAt, Array2D.zeros, bind, Except.bind, pure,
      Except.pure]
  · simp [Array2D.get, readAt]
  · rw [abs_le] at hc ⊢
    obtain ⟨h1, h2⟩ := hc
    constructor <;> norm_num at h1 h2 ⊢ <;> nlinarith

theorem OnlyOutOfRange.ok {α : Type} (a : α) : OnlyOutOfRange (.ok a : Except Failure α) :=
  fun _ h => Except.noConfusion h

theorem OnlyOutOfRange.bind {α β : Type} {x : Except Failure α} {f : α → Except Failure β}
    (hx : OnlyOutOfRange x) (hf : ∀ a, OnlyOutOfRange (f a)) : OnlyOutOfRange (x >>= f) := by
  cases x with
  | error e =>
    intro e' h
    have h' : (Except.error e : Except Failure α) = .error e' := by
      cases h; rfl
    exact hx e' h'
  | ok a => exact hf a

theorem OnlyOutOfRange.forLoop {σ : Type} (n : Nat) (body : Nat → σ → Except Failure σ)
    (h : ∀ i s, OnlyOutOfRange (body i s)) (s : σ) : OnlyOutOfRange (forLoop n body s) := by
  induction n with
  | zero => exact OnlyOutOfRange.ok s
  | succ k ih => exact OnlyOutOfRange.bind ih (h k)

theorem readAt_onlyOutOfRange {F : Type} (p : List F) (i : Nat) :
    OnlyOutOfRange (readAt p i) := by
  unfold readAt
  cases p[i]? with
  | none => intro e h; cases h; rfl
  | some v => exact OnlyOutOfRange.ok v

theorem writeAt_onlyOutOfRange {F : Type} (p : List F) (i : Nat) (v : F) :
    OnlyOutOfRange (writeAt p i v) := by
  unfold writeAt
  split
  · exact OnlyOutOfRange.ok _
  · intro e h; cases h; rfl

theorem Array2D.get_onlyOutOfRange {F : Type} (a : Array2D F) (i j : Nat) :
    OnlyOutOfRange (a.get i j) := by
  unfold Array2D.get
  split
  · exact readAt_onlyOutOfRange _ _
  · intro e h; cases h; rfl

theorem Array2D.set_onlyOutOfRange {F : Type} (a : Array2D F) (i j : Nat) (v : F) :
    OnlyOutOfRange (a.set i j v) := by
  unfold Array2D.set
  split
  · intro e h
    unfold writeAt at h
    split at h
    · exact Except.noConfusion h
    · cases h; rfl
  · intro e h; cases h; rfl

theorem sgemm_onlyOutOfRange {F : Type} [Field F] (transa transb : Trans) (m n k : Nat)
    (alpha : F) (a : List F) (lda : Nat) (b : List F) (ldb : Nat) (beta : F) (c : List F)
    (ldc : Nat) :
    OnlyOutOfRange (sgemm_ transa transb m n k alpha a lda b ldb beta c ldc) := by
  unfold sgemm_
  refine OnlyOutOfRange.forLoop _ _ (fun j c => OnlyOutOfRange.forLoop _ _ (fun i c => ?_) c) c
  unfold sgemmEntry
  refine OnlyOutOfRange.bind (OnlyOutOfRange.forLoop _ _ (fun l acc => ?_) 0) (fun dot =>
    OnlyOutOfRange.bind (readAt_onlyOutOfRange _ _) (fun old => writeAt_onlyOutOfRange _ _ _))
  unfold sgemmDot
  exact OnlyOutOfRange.bind (readAt_onlyOutOfRange _ _) (fun x =>
    OnlyOutOfRange.bind (readAt_onlyOutOfRange _ _) (fun y => OnlyOutOfRange.ok _))

theorem accumulateLocals_onlyOutOfRange {F : Type} [Field F] (self : DiagonalGaussianHMMEstep F)
    (seq posteriors : Array2D F) (h : seq.cols = self.numFeatures_) :
    OnlyOutOfRange (self.accumulateLocals seq posteriors) := by
  unfold DiagonalGaussianHMMEstep.accumulateLocals
  simp only [h, ne_eq, not_true_eq_false, if_false]
  refine OnlyOutOfRange.bind (OnlyOutOfRange.forLoop _ _ (fun i s =>
    OnlyOutOfRange.forLoop _ _ (fun j s => ?_) s) _) (fun seq2 =>
      OnlyOutOfRange.bind (sgemm_onlyOutOfRange _ _ _ _ _ _ _ _ _ _ _ _ _) (fun o =>
        OnlyOutOfRange.bind (sgemm_onlyOutOfRange _ _ _ _ _ _ _ _ _ _ _ _ _) (fun o2 =>
          OnlyOutOfRange.ok _)))
  unfold seq2Step
  exact OnlyOutOfRange.bind (Array2D.get_onlyOutOfRange _ _ _) (fun v =>
    Array2D.set_onlyOutOfRange _ _ _ _)

/-- The method returns what the base call leaves in `stats`, provided the emission-specific
part runs to its end. -/
theorem accumulateSufficientStats_eq {F : Type} [Field F] (self : DiagonalGaussianHMMEstep F)
    (base : HMMEstepBase F) (stats : DiagonalGaussianHMMSufficientStats F) (seq : Array2D F)
    (frameLogProb : List F) (posteriors fwdLattice bwdLattice : Array2D F) :
    self.accumulateSufficientStats base stats seq frameLogProb posteriors fwdLattice bwdLattice
      = (self.accumulateLocals seq posteriors).map (fun _ =>
          HMMEstep.accumulateSufficientStats base stats seq frameLogProb posteriors fwdLattice
            bwdLattice) := by
  unfold DiagonalGaussianHMMEstep.accumulateSufficientStats
  cases self.accumulateLocals seq posteriors <;> rfl

theorem index_lt_of_lt (i j R C : Nat) (hi : i < R) (hj : j < C) : i * C + j < R * C := by
  have := mul_succ_le_of_lt i R C hi
  rw [Nat.succ_mul] at this
  omega

/-- With every index it uses inside its buffers, `sgemm_("N", "T", ...)` runs to its end and
keeps the size of `c`. -/
theorem sgemm_NT_ok {F : Type} [Field F] (m n k : Nat) (alpha : F) (a : List F) (lda : Nat)
    (b : List F) (ldb : Nat) (beta : F) (c : List F) (ldc : Nat)
    (ha : ∀ i l, i < m → l < k → i + l * lda < a.length)
    (hb : ∀ j l, j < n → l < k → j + l * ldb < b.length)
    (hc : ∀ i j, i < m → j < n → i + j * ldc < c.length) :
    ∃ c', sgemm_ .N .T m n k alpha a lda b ldb beta c ldc = .ok c'
      ∧ c'.length = c.length := by
  unfold sgemm_
  refine forLoop_inv (fun _ (c' : List F) => c'.length = c.length) n _ c rfl
    (fun j c1 hj h1 => ?_)
  refine forLoop_inv (fun _ (c' : List F) => c'.length = c.length) m _ c1 h1
    (fun i c2 hi h2 => ?_)
  obtain ⟨dot, hdot, _⟩ := forLoop_inv (fun _ (_ : F) => True) k
    (sgemmDot .N .T a lda b ldb i j) 0 trivial (fun l acc hl _ => by
      have e1 : readAt a (i + l * lda) = .ok (a.getD (i + l * lda) 0) :=
        readAt_of_lt _ _ (ha i l hi hl)
      have e2 : readAt b (j + l * ldb) = .ok (b.getD (j + l * ldb) 0) :=
        readAt_of_lt _ _ (hb j l hj hl)
      refine ⟨acc + a.getD (i + l * lda) 0 * b.getD (j + l * ldb) 0, ?_, trivial⟩
      simp only [sgemmDot, e1, e2, ok_bind]
      rfl)
  have hidx : i + j * ldc < c2.length := by rw [h2]; exact hc i j hi hj
  refine ⟨c2.set (i + j * ldc) (alpha * dot + beta * c2.getD (i + j * ldc) 0), ?_, ?_⟩
  · simp only [sgemmEntry, hdot, readAt_of_lt _ _ hidx, ok_bind]
    exact writeAt_of_lt _ _ _ hidx
  · simpa using h2

/-- On a sequence of `T ≤ D` rows and `D` columns and posteriors of `T` rows and `K` columns the
emission-specific part of `accumulateSufficientStats` runs to its end. -/
theorem accumulateLocals_ok {F : Type} [Field F] (self : DiagonalGaussianHMMEstep F)
    (seq posteriors : Array2D F) (hs : seq.WF) (hsc : seq.cols = self.numFeatures_)
    (hp : posteriors.WF) (hpr : posteriors.rows = seq.rows)
    (hpc : posteriors.cols = self.numStates_) (hT : seq.rows ≤ self.numFeatures_) :
    ∃ loc, self.accumulateLocals seq posteriors = .ok loc := by
  have hsl : seq.data.length = seq.rows * self.numFeatures_ := by rw [← hsc]; exact hs
  have hpl : posteriors.data.length = seq.rows * self.numStates_ := by
    rw [← hpc, ← hpr]; exact hp
  obtain ⟨seq2, h2, h2r, h2c, h2l⟩ := forLoop_inv
    (fun _ (s : Array2D F) => s.rows = seq.rows ∧ s.cols = self.numFeatures_
      ∧ s.data.length = seq.rows * self.numFeatures_) seq.rows
    (fun i s => forLoop seq.rows (seq2Step seq i) s)
    (Array2D.zeros seq.rows self.numFeatures_) ⟨rfl, rfl, List.length_replicate _ _⟩
    (fun i s hi hP => forLoop_inv
      (fun _ (s : Array2D F) => s.rows = seq.rows ∧ s.cols = self.numFeatures_
        ∧ s.data.length = seq.rows * self.numFeatures_) seq.rows (seq2Step seq i) s hP
      (fun j s1 hj hP1 => by
        obtain ⟨r1, c1, l1⟩ := hP1
        have hjD : j < self.numFeatures_ := Nat.lt_of_lt_of_le hj hT
        have hidx : i * s1.cols + j < s1.data.length := by
          rw [c1, l1]; exact index_lt_of_lt i j _ _ hi hjD
        refine ⟨⟨s1.rows, s1.cols,
          List.set s1.data (i * s1.cols + j) (seq.data.getD (i * seq.cols + j) 0)⟩,
          ?_, r1, c1, ?_⟩
        · simp only [seq2Step, seq.get_of_lt i j hs hi (hsc ▸ hjD), ok_bind]
          exact s1.set_of_lt i j _ (r1 ▸ hi) (c1 ▸ hjD) hidx
        · simpa using l1))
  obtain ⟨o1, ho1, _⟩ := sgemm_NT_ok self.numFeatures_ self.numStates_ seq.rows (1.0 : F)
    seq.data self.numFeatures_ posteriors.data self.numStates_ (1.0 : F)
    (Array2D.zeros self.numStates_ self.numFeatures_).data self.numFeatures_
    (fun i l hi hl => by rw [hsl, Nat.add_comm]; exact index_lt_of_lt l i _ _ hl hi)
    (fun j l hj hl => by rw [hpl, Nat.add_comm]; exact index_lt_of_lt l j _ _ hl hj)
    (fun i j hi hj => by
      show _ < (List.replicate _ _).length
      rw [List.length_replicate, Nat.add_comm]; exact index_lt_of_lt j i _ _ hj hi)
  obtain ⟨o2, ho2, _⟩ := sgemm_NT_ok self.numFeatures_ self.numStates_ seq.rows (1.0 : F)
    seq2.data self.numFeatures_ posteriors.data self.numStates_ (1.0 : F)
    (Array2D.zeros self.numStates_ self.numFeatures_).data self.numFeatures_
    (fun i l hi hl => by rw [h2l, Nat.add_comm]; exact index_lt_of_lt l i _ _ hl hi)
    (fun j l hj hl => by rw [hpl, Nat.add_comm]; exact index_lt_of_lt l j _ _ hl hj)
    (fun i j hi hj => by
      show _ < (List.replicate _ _).length
      rw [List.length_replicate, Nat.add_comm]; exact index_lt_of_lt j i _ _ hj hi)
  refine ⟨⟨⟨self.numStates_, self.numFeatures_, o1⟩, ⟨self.numStates_, self.numFeatures_, o2⟩,
    seq2⟩, ?_⟩
  unfold DiagonalGaussianHMMEstep.accumulateLocals
  simp only [hsc, ne_eq, not_true_eq_false, if_false, h2, ho1, ho2, ok_bind]
  rfl

/-- C5, evaluated at `K = D = T = 1`, `seq = [[1]]`, `posteriors = [[1]]` and fresh statistics:
the call returns with `obsSum[0][0]` still `0`, where the weighted sum
`obsSum_before[0][0] + Σ_t posteriors[t][0] * seq[t][0]` is `1`. -/
theorem accumulate_obsSum_not_updated (base : HMMEstepBase ℝ) :
    ∃ s, (⟨1, ⟨1, 1, [1]⟩, [1], 1, ⟨1, 1, [0]⟩, ⟨1, 1, [1]⟩, ⟨1, 1, [0]⟩, ⟨1, 1, [0]⟩,
          ⟨1, 1, [0]⟩⟩ : DiagonalGaussianHMMEstep ℝ).accumulateSufficientStats base
        (DiagonalGaussianHMMSufficientStats.new 1) ⟨1, 1, [1]⟩ [0] ⟨1, 1, [1]⟩ ⟨1, 1, [0]⟩
        ⟨1, 1, [0]⟩ = .ok s
      ∧ s.obsSum 0 0 = 0
      ∧ (DiagonalGaussianHMMSufficientStats.new 1 : DiagonalGaussianHMMSufficientStats ℝ).obsSum
            0 0
          + ∑ t in Finset.range 1,
              (⟨1, 1, [1]⟩ : Array2D ℝ).entry t 0 * (⟨1, 1, [1]⟩ : Array2D ℝ).entry t 0 = 1 := by
  have hloc : (⟨1, ⟨1, 1, [1]⟩, [1], 1, ⟨1, 1, [0]⟩, ⟨1, 1, [1]⟩, ⟨1, 1, [0]⟩, ⟨1, 1, [0]⟩,
      ⟨1, 1, [0]⟩⟩ : DiagonalGaussianHMMEstep ℝ).accumulateLocals ⟨1, 1, [1]⟩ ⟨1, 1, [1]⟩
      = .ok ⟨⟨1, 1, [1]⟩, ⟨1, 1, [1]⟩, ⟨1, 1, [1]⟩⟩ := by
    simp [DiagonalGaussianHMMEstep.accumulateLocals, forLoop, seq2Step, sgemm_, sgemmEntry,
      sgemmDot, Array2D.get, Array2D.set, readAt, writeAt, Array2D.zeros, bind, Except.bind,
      Except.map, pure, Except.pure]
    norm_num
  rw [accumulateSufficientStats_eq, hloc]
  refine ⟨_, rfl, rfl, ?_⟩
  simp [DiagonalGaussianHMMSufficientStats.new, Array2D.entry]

/-- C6, evaluated at `K = D = T = 1`, `seq = [[2]]`, `posteriors = [[1]]` and fresh statistics:
the local `seq2` is `[[2]]` (a copy, not the square), the local product `obs2` is `[[2]]`, and
the call returns with `obsSquaredSum[0][0]` still `0`, where
`obsSquaredSum_before[0][0] + Σ_t posteriors[t][0] * seq[t][0]^2` is `4`. -/
theorem accumulate_obsSquaredSum_not_updated (base : HMMEstepBase ℝ) :
    (⟨1, ⟨1, 1, [1]⟩, [1], 1, ⟨1, 1, [0]⟩, ⟨1, 1, [1]⟩, ⟨1, 1, [0]⟩, ⟨1, 1, [0]⟩,
        ⟨1, 1, [0]⟩⟩ : DiagonalGaussianHMMEstep ℝ).accumulateLocals ⟨1, 1, [2]⟩ ⟨1, 1, [1]⟩
      = .ok ⟨⟨1, 1, [2]⟩, ⟨1, 1, [2]⟩, ⟨1, 1, [2]⟩⟩
    ∧ ∃ s, (⟨1, ⟨1, 1, [1]⟩, [1], 1, ⟨1, 1, [0]⟩, ⟨1, 1, [1]⟩, ⟨1, 1, [0]⟩, ⟨1, 1, [0]⟩,
          ⟨1, 1, [0]⟩⟩ : DiagonalGaussianHMMEstep ℝ).accumulateSufficientStats base
        (DiagonalGaussianHMMSufficientStats.new 1) ⟨1, 1, [2]⟩ [0] ⟨1, 1, [1]⟩ ⟨1, 1, [0]⟩
        ⟨1, 1, [0]⟩ = .ok s
      ∧ s.obsSquaredSum 0 0 = 0
      ∧ (DiagonalGaussianHMMSufficientStats.new 1 :
            DiagonalGaussianHMMSufficientStats ℝ).obsSquaredSum 0 0
          + ∑ t in Finset.range 1,
              (⟨1, 1, [1]⟩ : Array2D ℝ).entry t 0 * (⟨1, 1, [2]⟩ : Array2D ℝ).entry t 0 ^ 2
            = 4 := by
  have hloc : (⟨1, ⟨1, 1, [1]⟩, [1], 1, ⟨1, 1, [0]⟩, ⟨1, 1, [1]⟩, ⟨1, 1, [0]⟩, ⟨1, 1, [0]⟩,
      ⟨1, 1, [0]⟩⟩ : DiagonalGaussianHMMEstep ℝ).accumulateLocals ⟨1, 1, [2]⟩ ⟨1, 1, [1]⟩
      = .ok ⟨⟨1, 1, [2]⟩, ⟨1, 1, [2]⟩, ⟨1, 1, [2]⟩⟩ := by
    simp [DiagonalGaussianHMMEstep.accumulateLocals, forLoop, seq2Step, sgemm_, sgemmEntry,
      sgemmDot, Array2D.get, Array2D.set, readAt, writeAt, Array2D.zeros, bind, Except.bind,
      Except.map, pure, Except.pure]
    norm_num
  refine ⟨hloc, ?_⟩
  rw [accumulateSufficientStats_eq, hloc]
  refine ⟨_, rfl, rfl, ?_⟩
  simp [DiagonalGaussianHMMSufficientStats.new, Array2D.entry]
  norm_num

/-- C7, evaluated at `K = D = T = 1`, `seq = [[3]]`, `posteriors = [[1]]` and fresh statistics:
the call returns with `occupancy[0]` still `0`, where
`occupancy_before[0] + Σ_t posteriors[t][0]` is `1`. -/
theorem accumulate_occupancy_not_updated (base : HMMEstepBase ℝ) :
    ∃ s, (⟨1, ⟨1, 1, [1]⟩, [1], 1, ⟨1, 1, [0]⟩, ⟨1, 1, [1]⟩, ⟨1, 1, [0]⟩, ⟨1, 1, [0]⟩,
          ⟨1, 1, [0]⟩⟩ : DiagonalGaussianHMMEstep ℝ).accumulateSufficientStats base
        (DiagonalGaussianHMMSufficientStats.new 1) ⟨1, 1, [3]⟩ [0] ⟨1, 1, [1]⟩ ⟨1, 1, [0]⟩
        ⟨1, 1, [0]⟩ = .ok s
      ∧ s.occupancy 0 = 0
      ∧ (DiagonalGaussianHMMSufficientStats.new 1 :
            DiagonalGaussianHMMSufficientStats ℝ).occupancy 0
          + ∑ t in Finset.range 1, (⟨1, 1, [1]⟩ : Array2D ℝ).entry t 0 = 1 := by
  have hloc : (⟨1, ⟨1, 1, [1]⟩, [1], 1, ⟨1, 1, [0]⟩, ⟨1, 1, [1]⟩, ⟨1, 1, [0]⟩, ⟨1, 1, [0]⟩,
      ⟨1, 1, [0]⟩⟩ : DiagonalGaussianHMMEstep ℝ).accumulateLocals ⟨1, 1, [3]⟩ ⟨1, 1, [1]⟩
      = .ok ⟨⟨1, 1, [3]⟩, ⟨1, 1, [3]⟩, ⟨1, 1, [3]⟩⟩ := by
    simp [DiagonalGaussianHMMEstep.accumulateLocals, forLoop, seq2Step, sgemm_, sgemmEntry,
      sgemmDot, Array2D.get, Array2D.set, readAt, writeAt, Array2D.zeros, bind, Except.bind,
      Except.map, pure, Except.pure]
    norm_num
  rw [accumulateSufficientStats_eq, hloc]
  refine ⟨_, rfl, rfl, ?_⟩
  simp [DiagonalGaussianHMMSufficientStats.new, Array2D.entry]

theorem emissionStats_base {F : Type} (base : HMMEstepBase F)
    (stats : DiagonalGaussianHMMSufficientStats F) (seq : Array2D F) (frameLogProb : List F)
    (posteriors fwdLattice bwdLattice : Array2D F) :
    emissionStats (HMMEstep.accumulateSufficientStats base stats seq frameLogProb posteriors
      fwdLattice bwdLattice) = emissionStats stats := rfl

/-- C8: accumulation does not depend on the processing order. For sequences `A` and `B` with the
model's feature count and any starting `stats`, accumulating `A` then `B` and accumulating `B`
then `A` end the same way and give the same `occupancy`, `obsSum` and `obsSquaredSum`; when the
inputs have matching shapes and at most `D` rows each, both orders do return statistics. -/
theorem accumulate_order_independent (self : DiagonalGaussianHMMEstep ℝ) (base : HMMEstepBase ℝ)
    (stats : DiagonalGaussianHMMSufficientStats ℝ)
    (A : Array2D ℝ) (logProbA : List ℝ) (postA fwdA bwdA : Array2D ℝ)
    (B : Array2D ℝ) (logProbB : List ℝ) (postB fwdB bwdB : Array2D ℝ)
    (hA : A.cols = self.numFeatures_) (hB : B.cols = self.numFeatures_) :
    ((self.accumulateSufficientStats base stats A logProbA postA fwdA bwdA >>= fun s =>
        self.accumulateSufficientStats base s B logProbB postB fwdB bwdB).map emissionStats
      = (self.accumulateSufficientStats base stats B logProbB postB fwdB bwdB >>= fun s =>
        self.accumulateSufficientStats base s A logProbA postA fwdA bwdA).map emissionStats)
    ∧ (A.WF → postA.WF → postA.rows = A.rows → postA.cols = self.numStates_ →
        A.rows ≤ self.numFeatures_ →
       B.WF → postB.WF → postB.rows = B.rows → postB.cols = self.numStates_ →
        B.rows ≤ self.numFeatures_ →
       ∃ s1 s2,
        (self.accumulateSufficientStats base stats A logProbA postA fwdA bwdA >>= fun s =>
          self.accumulateSufficientStats base s B logProbB postB fwdB bwdB) = .ok s1
        ∧ (self.accumulateSufficientStats base stats B logProbB postB fwdB bwdB >>= fun s =>
          self.accumulateSufficientStats base s A logProbA postA fwdA bwdA) = .ok s2
        ∧ emissionStats s1 = emissionStats s2) := by
  have oA := accumulateLocals_onlyOutOfRange self A postA hA
  have oB := accumulateLocals_onlyOutOfRange self B postB hB
  constructor
  · simp only [accumulateSufficientStats_eq]
    rcases hlA : self.accumulateLocals A postA with eA | lA <;>
      rcases hlB : self.accumulateLocals B postB with eB | lB
    · rw [oA eA hlA, oB eB hlB]; rfl
    · rfl
    · rfl
    · rfl
  · intro a1 a2 a3 a4 a5 b1 b2 b3 b4 b5
    obtain ⟨lA, hlA⟩ := accumulateLocals_ok self A postA a1 hA a2 a3 a4 a5
    obtain ⟨lB, hlB⟩ := accumulateLocals_ok self B postB b1 hB b2 b3 b4 b5
    simp only [accumulateSufficientStats_eq, hlA, hlB]
    exact ⟨_, _, rfl, rfl, rfl⟩

/-- Witness of C8: one state, one feature, `A = [[2]]`, `B = [[5]]`, posteriors `[[1]]` each,
fresh statistics, a base call that adds 1 to the total log-likelihood. -/
theorem accumulate_order_independent_witness :
    ∃ s1 s2,
      ((⟨1, ⟨1, 1, [1]⟩, [1], 1, ⟨1, 1, [0]⟩, ⟨1, 1, [1]⟩, ⟨1, 1, [0]⟩, ⟨1, 1, [0]⟩,
          ⟨1, 1, [0]⟩⟩ : DiagonalGaussianHMMEstep ℝ).accumulateSufficientStats
          (⟨fun s _ _ _ _ _ => s.transCounts, fun s _ _ _ _ _ => s.logProb + 1⟩ : HMMEstepBase ℝ)
          (DiagonalGaussianHMMSufficientStats.new 1) ⟨1, 1, [2]⟩ [0] ⟨1, 1, [1]⟩ ⟨1, 1, [0]⟩
          ⟨1, 1, [0]⟩ >>= fun s =>
        (⟨1, ⟨1, 1, [1]⟩, [1], 1, ⟨1, 1, [0]⟩, ⟨1, 1, [1]⟩, ⟨1, 1, [0]⟩, ⟨1, 1, [0]⟩,
          ⟨1, 1, [0]⟩⟩ : DiagonalGaussianHMMEstep ℝ).accumulateSufficientStats
          (⟨fun s _ _ _ _ _ => s.transCounts, fun s _ _ _ _ _ => s.logProb + 1⟩ : HMMEstepBase ℝ) s
          ⟨1, 1, [5]⟩ [0] ⟨1, 1, [1]⟩ ⟨1, 1, [0]⟩ ⟨1, 1, [0]⟩) = .ok s1
      ∧ ((⟨1, ⟨1, 1, [1]⟩, [1], 1, ⟨1, 1, [0]⟩, ⟨1, 1, [1]⟩, ⟨1, 1, [0]⟩, ⟨1, 1, [0]⟩,
          ⟨1, 1, [0]⟩⟩ : DiagonalGaussianHMMEstep ℝ).accumulateSufficientStats
          (⟨fun s _ _ _ _ _ => s.transCounts, fun s _ _ _ _ _ => s.logProb + 1⟩ : HMMEstepBase ℝ)
          (DiagonalGaussianHMMSufficientStats.new 1) ⟨1, 1, [5]⟩ [0] ⟨1, 1, [1]⟩ ⟨1, 1, [0]⟩
          ⟨1, 1, [0]⟩ >>= fun s =>
        (⟨1, ⟨1, 1, [1]⟩, [1], 1, ⟨1, 1, [0]⟩, ⟨1, 1, [1]⟩, ⟨1, 1, [0]⟩, ⟨1, 1, [0]⟩,
          ⟨1, 1, [0]⟩⟩ : DiagonalGaussianHMMEstep ℝ).accumulateSufficientStats
          (⟨fun s _ _ _ _ _ => s.transCounts, fun s _ _ _ _ _ => s.logProb + 1⟩ : HMMEstepBase ℝ) s
          ⟨1, 1, [2]⟩ [0] ⟨1, 1, [1]⟩ ⟨1, 1, [0]⟩ ⟨1, 1, [0]⟩) = .ok s2
      ∧ emissionStats s1 = emissionStats s2 :=
  (accumulate_order_independent
    (⟨1, ⟨1, 1, [1]⟩, [1], 1, ⟨1, 1, [0]⟩, ⟨1, 1, [1]⟩, ⟨1, 1, [0]⟩, ⟨1, 1, [0]⟩,
          ⟨1, 1, [0]⟩⟩ : DiagonalGaussianHMMEstep ℝ)
    (⟨fun s _ _ _ _ _ => s.transCounts, fun s _ _ _ _ _ => s.logProb + 1⟩ : HMMEstepBase ℝ)
    (DiagonalGaussianHMMSufficientStats.new 1)
    ⟨1, 1, [2]⟩ [0] ⟨1, 1, [1]⟩ ⟨1, 1, [0]⟩ ⟨1, 1, [0]⟩
    ⟨1, 1, [5]⟩ [0] ⟨1, 1, [1]⟩ ⟨1, 1, [0]⟩ ⟨1, 1, [0]⟩ rfl rfl).2
    rfl rfl rfl rfl (Nat.le_refl 1) rfl rfl rfl rfl (Nat.le_refl 1)

/-- C9: partial accumulation composes by merge. Accumulating `A` into one fresh accumulator and
`B` into another and merging them by elementwise addition ends the same way, and gives the same
`occupancy`, `obsSum` and `obsSquaredSum`, as accumulating `A` and then `B` into a single fresh
accumulator; when the inputs have matching shapes and at most `D` rows each, both routes do
return statistics. -/
theorem accumulate_merge_eq_sequential (self : DiagonalGaussianHMMEstep ℝ)
    (base : HMMEstepBase ℝ)
    (A : Array2D ℝ) (logProbA : List ℝ) (postA fwdA bwdA : Array2D ℝ)
    (B : Array2D ℝ) (logProbB : List ℝ) (postB fwdB bwdB : Array2D ℝ) :
    ((self.accumulateSufficientStats base self.initializeSufficientStats A logProbA postA fwdA
          bwdA >>= fun a =>
        self.accumulateSufficientStats base self.initializeSufficientStats B logProbB postB fwdB
          bwdB >>= fun b => pure (a.merge b)).map emissionStats
      = (self.accumulateSufficientStats base self.initializeSufficientStats A logProbA postA fwdA
          bwdA >>= fun a =>
        self.accumulateSufficientStats base a B logProbB postB fwdB bwdB).map emissionStats)
    ∧ (A.WF → A.cols = self.numFeatures_ → postA.WF → postA.rows = A.rows →
        postA.cols = self.numStates_ → A.rows ≤ self.numFeatures_ →
       B.WF → B.cols = self.numFeatures_ → postB.WF → postB.rows = B.rows →
        postB.cols = self.numStates_ → B.rows ≤ self.numFeatures_ →
       ∃ s1 s2,
        (self.accumulateSufficientStats base self.initializeSufficientStats A logProbA postA
            fwdA bwdA >>= fun a =>
          self.accumulateSufficientStats base self.initializeSufficientStats B logProbB postB
            fwdB bwdB >>= fun b => pure (a.merge b)) = .ok s1
        ∧ (self.accumulateSufficientStats base self.initializeSufficientStats A logProbA postA
            fwdA bwdA >>= fun a =>
          self.accumulateSufficientStats base a B logProbB postB fwdB bwdB) = .ok s2
        ∧ emissionStats s1 = emissionStats s2) := by
  have hmerge : ∀ a b : DiagonalGaussianHMMSufficientStats ℝ,
      emissionStats a = emissionStats (self.initializeSufficientStats) →
      emissionStats b = emissionStats (self.initializeSufficientStats) →
      emissionStats (a.merge b) = emissionStats (self.initializeSufficientStats) := by
    intro a b ha hb
    simp only [emissionStats, Prod.mk.injEq] at ha hb
    simp only [emissionStats, DiagonalGaussianHMMSufficientStats.merge, ha.1, ha.2.1, ha.2.2,
      hb.1, hb.2.1, hb.2.2]
    simp [DiagonalGaussianHMMEstep.initializeSufficientStats,
      DiagonalGaussianHMMSufficientStats.new]
  constructor
  · simp only [accumulateSufficientStats_eq]
    rcases hlA : self.accumulateLocals A postA with eA | lA <;>
      rcases hlB : self.accumulateLocals B postB with eB | lB
    · rfl
    · rfl
    · rfl
    · show Except.ok (emissionStats (DiagonalGaussianHMMSufficientStats.merge _ _)) = Except.ok _
      rw [hmerge _ _ (emissionStats_base _ _ _ _ _ _ _) (emissionStats_base _ _ _ _ _ _ _)]
      rfl
  · intro a1 a0 a2 a3 a4 a5 b1 b0 b2 b3 b4 b5
    obtain ⟨lA, hlA⟩ := accumulateLocals_ok self A postA a1 a0 a2 a3 a4 a5
    obtain ⟨lB, hlB⟩ := accumulateLocals_ok self B postB b1 b0 b2 b3 b4 b5
    simp only [accumulateSufficientStats_eq, hlA, hlB]
    refine ⟨_, _, rfl, rfl, ?_⟩
    rw [hmerge _ _ (emissionStats_base _ _ _ _ _ _ _) (emissionStats_base _ _ _ _ _ _ _)]
    rfl

/-- Witness of C9: one state, one feature, `A = [[2]]`, `B = [[5]]`, posteriors `[[1]]` each,
a base call that adds 1 to the total log-likelihood. -/
theorem accumulate_merge_eq_sequential_witness :
    ∃ s1 s2,
      ((⟨1, ⟨1, 1, [1]⟩, [1], 1, ⟨1, 1, [0]⟩, ⟨1, 1, [1]⟩, ⟨1, 1, [0]⟩, ⟨1, 1, [0]⟩,
          ⟨1, 1, [0]⟩⟩ : DiagonalGaussianHMMEstep ℝ).accumulateSufficientStats
          (⟨fun s _ _ _ _ _ => s.transCounts, fun s _ _ _ _ _ => s.logProb + 1⟩ : HMMEstepBase ℝ)
          (⟨1, ⟨1, 1, [1]⟩, [1], 1, ⟨1, 1, [0]⟩, ⟨1, 1, [1]⟩, ⟨1, 1, [0]⟩, ⟨1, 1, [0]⟩,
          ⟨1, 1, [0]⟩⟩ : DiagonalGaussianHMMEstep ℝ).initializeSufficientStats
          ⟨1, 1, [2]⟩ [0] ⟨1, 1, [1]⟩ ⟨1, 1, [0]⟩ ⟨1, 1, [0]⟩ >>= fun a =>
        (⟨1, ⟨1, 1, [1]⟩, [1], 1, ⟨1, 1, [0]⟩, ⟨1, 1, [1]⟩, ⟨1, 1, [0]⟩, ⟨1, 1, [0]⟩,
          ⟨1, 1, [0]⟩⟩ : DiagonalGaussianHMMEstep ℝ).accumulateSufficientStats
          (⟨fun s _ _ _ _ _ => s.transCounts, fun s _ _ _ _ _ => s.logProb + 1⟩ : HMMEstepBase ℝ)
          (⟨1, ⟨1, 1, [1]⟩, [1], 1, ⟨1, 1, [0]⟩, ⟨1, 1, [1]⟩, ⟨1, 1, [0]⟩, ⟨1, 1, [0]⟩,
          ⟨1, 1, [0]⟩⟩ : DiagonalGaussianHMMEstep ℝ).initializeSufficientStats
          ⟨1, 1, [5]⟩ [0] ⟨1, 1, [1]⟩ ⟨1, 1, [0]⟩ ⟨1, 1, [0]⟩ >>= fun b =>
        pure (a.merge b)) = .ok s1
      ∧ ((⟨1, ⟨1, 1, [1]⟩, [1], 1, ⟨1, 1, [0]⟩, ⟨1, 1, [1]⟩, ⟨1, 1, [0]⟩, ⟨1, 1, [0]⟩,
          ⟨1, 1, [0]⟩⟩ : DiagonalGaussianHMMEstep ℝ).accumulateSufficientStats
          (⟨fun s _ _ _ _ _ => s.transCounts, fun s _ _ _ _ _ => s.logProb + 1⟩ : HMMEstepBase ℝ)
          (⟨1, ⟨1, 1, [1]⟩, [1], 1, ⟨1, 1, [0]⟩, ⟨1, 1, [1]⟩, ⟨1, 1, [0]⟩, ⟨1, 1, [0]⟩,
          ⟨1, 1, [0]⟩⟩ : DiagonalGaussianHMMEstep ℝ).initializeSufficientStats
          ⟨1, 1, [2]⟩ [0] ⟨1, 1, [1]⟩ ⟨1, 1, [0]⟩ ⟨1, 1, [0]⟩ >>= fun a =>
        (⟨1, ⟨1, 1, [1]⟩, [1], 1, ⟨1, 1, [0]⟩, ⟨1, 1, [1]⟩, ⟨1, 1, [0]⟩, ⟨1, 1, [0]⟩,
          ⟨1, 1, [0]⟩⟩ : DiagonalGaussianHMMEstep ℝ).accumulateSufficientStats
          (⟨fun s _ _ _ _ _ => s.transCounts, fun s _ _ _ _ _ => s.logProb + 1⟩ : HMMEstepBase ℝ) a
          ⟨1, 1, [5]⟩ [0] ⟨1, 1, [1]⟩ ⟨1, 1, [0]⟩ ⟨1, 1, [0]⟩) = .ok s2
      ∧ emissionStats s1 = emissionStats s2 :=
  (accumulate_merge_eq_sequential
    (⟨1, ⟨1, 1, [1]⟩, [1], 1, ⟨1, 1, [0]⟩, ⟨1, 1, [1]⟩, ⟨1, 1, [0]⟩, ⟨1, 1, [0]⟩,
          ⟨1, 1, [0]⟩⟩ : DiagonalGaussianHMMEstep ℝ)
    (⟨fun s _ _ _ _ _ => s.transCounts, fun s _ _ _ _ _ => s.logProb + 1⟩ : HMMEstepBase ℝ)
    ⟨1, 1, [2]⟩ [0] ⟨1, 1, [1]⟩ ⟨1, 1, [0]⟩ ⟨1, 1, [0]⟩
    ⟨1, 1, [5]⟩ [0] ⟨1, 1, [1]⟩ ⟨1, 1, [0]⟩ ⟨1, 1, [0]⟩).2
    rfl rfl rfl rfl rfl (Nat.le_refl 1) rfl rfl rfl rfl rfl (Nat.le_refl 1)

/-- Constructing a model from arguments of shape `(K, D)` and evaluating it on a sequence of
`D` columns succeeds; the result is `T × K` and every entry is the Gaussian log density. -/
theorem emission_constructed (K D : Nat) (transmat : Array2D ℝ) (startProb : List ℝ)
    (means variances X : Array2D ℝ)
    (hm : means.WF) (hmr : means.rows = K) (hmc : means.cols = D)
    (hv : variances.WF) (hvr : variances.rows = K) (hvc : variances.cols = D)
    (hX : X.WF) (hXc : X.cols = D) :
    ∃ m out, DiagonalGaussianHMMEstep.new Real.log K transmat startProb D means variances = .ok m
      ∧ m.emissionLogLikelihood X = .ok out
      ∧ out.rows = X.rows ∧ out.cols = K
      ∧ ∀ t j, t < X.rows → j < K →
          out.get t j = .ok (-0.5 * ∑ f in Finset.range D,
            ((X.entry t f - means.entry j f) ^ 2 / variances.entry j f
              + Real.log (variances.entry j f) + log_M_2_PI)) := by
  obtain ⟨c, hnew, hc⟩ :=
    new_spec Real.log K transmat startProb D means variances hm hmr hmc hv hvr hvc
  obtain ⟨out, hout, _, hval⟩ := emission_spec
    (⟨K, transmat, startProb, D, means, variances, c.logVariances, c.meansOverVariances,
      c.means2OverVariances⟩ : DiagonalGaussianHMMEstep ℝ) X hX hXc
    (WF.length_eq hv hvr hvc) hc.2.1.2.2.1 hc.2.2.2.2.1 hc.1.2.2.1
  refine ⟨_, _, hnew, hout, rfl, rfl, fun t j ht hj => ?_⟩
  apply Array2D.get_eq_of_getElem? (⟨X.rows, K, out⟩ : Array2D ℝ) t j _ ht hj
  rw [← logLikValue_constructed means variances X K D c hmc hvc hXc hc t j hj]
  exact hval t j ht hj

/-- C11: multi-feature additivity. For a two-feature model, a state `j` with non-zero variances
and a frame `t`, the log-likelihood returned for `(t, j)` is the sum of the log-likelihoods
returned by the two single-feature models built from `(means[j][0], variances[j][0])` and
`(means[j][1], variances[j][1])` at `X[t][0]` and `X[t][1]`, each of them the univariate
Gaussian log density. -/
theorem emissionLogLikelihood_additive (K : Nat) (transmat : Array2D ℝ) (startProb : List ℝ)
    (means variances X : Array2D ℝ)
    (hm : means.WF) (hmr : means.rows = K) (hmc : means.cols = 2)
    (hv : variances.WF) (hvr : variances.rows = K) (hvc : variances.cols = 2)
    (hX : X.WF) (hXc : X.cols = 2) (t j : Nat) (ht : t < X.rows) (hj : j < K)
    (_hv0 : variances.entry j 0 ≠ 0) (_hv1 : variances.entry j 1 ≠ 0) :
    ∃ m out m0 out0 m1 out1 y0 y1,
      DiagonalGaussianHMMEstep.new Real.log K transmat startProb 2 means variances = .ok m
      ∧ m.emissionLogLikelihood X = .ok out
      ∧ DiagonalGaussianHMMEstep.new Real.log 1 transmat startProb 1
          ⟨1, 1, [means.entry j 0]⟩ ⟨1, 1, [variances.entry j 0]⟩ = .ok m0
      ∧ m0.emissionLogLikelihood ⟨1, 1, [X.entry t 0]⟩ = .ok out0
      ∧ DiagonalGaussianHMMEstep.new Real.log 1 transmat startProb 1
          ⟨1, 1, [means.entry j 1]⟩ ⟨1, 1, [variances.entry j 1]⟩ = .ok m1
      ∧ m1.emissionLogLikelihood ⟨1, 1, [X.entry t 1]⟩ = .ok out1
      ∧ out0.get 0 0 = .ok y0 ∧ out1.get 0 0 = .ok y1
      ∧ out.get t j = .ok (y0 + y1)
      ∧ y0 = -0.5 * ((X.entry t 0 - means.entry j 0) ^ 2 / variances.entry j 0
            + Real.log (variances.entry j 0) + log_M_2_PI)
      ∧ y1 = -0.5 * ((X.entry t 1 - means.entry j 1) ^ 2 / variances.entry j 1
            + Real.log (variances.entry j 1) + log_M_2_PI) := by
  obtain ⟨m, out, h1, h2, _, _, h3⟩ := emission_constructed K 2 transmat startProb means
    variances X hm hmr hmc hv hvr hvc hX hXc
  obtain ⟨m0, out0, a1, a2, _, _, a3⟩ := emission_constructed 1 1 transmat startProb
    ⟨1, 1, [means.entry j 0]⟩ ⟨1, 1, [variances.entry j 0]⟩ ⟨1, 1, [X.entry t 0]⟩
    rfl rfl rfl rfl rfl rfl rfl rfl
  obtain ⟨m1, out1, b1, b2, _, _, b3⟩ := emission_constructed 1 1 transmat startProb
    ⟨1, 1, [means.entry j 1]⟩ ⟨1, 1, [variances.entry j 1]⟩ ⟨1, 1, [X.entry t 1]⟩
    rfl rfl rfl rfl rfl rfl rfl rfl
  have e0 : ∀ a : ℝ, (⟨1, 1, [a]⟩ : Array2D ℝ).entry 0 0 = a := fun a => by
    simp [Array2D.entry]
  refine ⟨m, out, m0, out0, m1, out1, _, _, h1, h2, a1, a2, b1, b2,
    a3 0 0 Nat.one_pos Nat.one_pos, b3 0 0 Nat.one_pos Nat.one_pos, ?_, ?_, ?_⟩
  · rw [h3 t j ht hj]
    simp only [Finset.sum_range_succ, Finset.sum_range_zero, e0]
    congr 1
    ring
  · simp only [Finset.sum_range_succ, Finset.sum_range_zero, e0, zero_add]
  · simp only [Finset.sum_range_succ, Finset.sum_range_zero, e0, zero_add]

/-- Witness of C11: one state with means `(2, -1)` and variances `(4, 1)`, frame `(3, 0)`. -/
theorem emissionLogLikelihood_additive_witness :
    ∃ m out m0 out0 m1 out1 y0 y1,
      DiagonalGaussianHMMEstep.new Real.log 1 ⟨0, 0, []⟩ [] 2 ⟨1, 2, [2, -1]⟩ ⟨1, 2, [4, 1]⟩
        = .ok m
      ∧ m.emissionLogLikelihood ⟨1, 2, [3, 0]⟩ = .ok out
      ∧ DiagonalGaussianHMMEstep.new Real.log 1 ⟨0, 0, []⟩ [] 1 ⟨1, 1, [2]⟩ ⟨1, 1, [4]⟩ = .ok m0
      ∧ m0.emissionLogLikelihood ⟨1, 1, [3]⟩ = .ok out0
      ∧ DiagonalGaussianHMMEstep.new Real.log 1 ⟨0, 0, []⟩ [] 1 ⟨1, 1, [-1]⟩ ⟨1, 1, [1]⟩ = .ok m1
      ∧ m1.emissionLogLikelihood ⟨1, 1, [0]⟩ = .ok out1
      ∧ out0.get 0 0 = .ok y0 ∧ out1.get 0 0 = .ok y1
      ∧ out.get 0 0 = .ok (y0 + y1) := by
  have e00 : ∀ a b : ℝ, (⟨1, 2, [a, b]⟩ : Array2D ℝ).entry 0 0 = a := fun a b => by
    simp [Array2D.entry]
  have e01 : ∀ a b : ℝ, (⟨1, 2, [a, b]⟩ : Array2D ℝ).entry 0 1 = b := fun a b => by
    simp [Array2D.entry]
  obtain ⟨m, out, m0, out0, m1, out1, y0, y1, h1, h2, h3, h4, h5, h6, h7, h8, h9, _, _⟩ :=
    emissionLogLikelihood_additive 1 ⟨0, 0, []⟩ [] ⟨1, 2, [2, -1]⟩ ⟨1, 2, [4, 1]⟩
      ⟨1, 2, [3, 0]⟩ rfl rfl rfl rfl rfl rfl rfl rfl 0 0 (by decide) (by decide)
      (by rw [e00]; norm_num) (by rw [e01]; norm_num)
  simp only [e00, e01] at h3 h4 h5 h6
  exact ⟨m, out, m0, out0, m1, out1, y0, y1, h1, h2, h3, h4, h5, h6, h7, h8, h9⟩

/-- C12: a feature-count mismatch is a failed assertion. When the column count of `seq` differs
from `numFeatures_` the call ends in the assertion failure, which is neither an exception nor a
return; when the column count equals `numFeatures_` the call does not end in it. -/
theorem accumulate_asserts_feature_count (self : DiagonalGaussianHMMEstep ℝ)
    (base : HMMEstepBase ℝ) (stats : DiagonalGaussianHMMSufficientStats ℝ) (seq : Array2D ℝ)
    (frameLogProb : List ℝ) (posteriors fwdLattice bwdLattice : Array2D ℝ) :
    (seq.cols ≠ self.numFeatures_ →
      self.accumulateSufficientStats base stats seq frameLogProb posteriors fwdLattice bwdLattice
        = .error .assertion)
    ∧ (seq.cols = self.numFeatures_ →
      self.accumulateSufficientStats base stats seq frameLogProb posteriors fwdLattice bwdLattice
        ≠ .error .assertion) := by
  constructor
  · intro h
    rw [accumulateSufficientStats_eq]
    unfold DiagonalGaussianHMMEstep.accumulateLocals
    simp only [h, ne_eq, not_false_eq_true, if_true]
    rfl
  · intro h hfail
    rw [accumulateSufficientStats_eq] at hfail
    have hloc := accumulateLocals_onlyOutOfRange self seq posteriors h
    rcases hl : self.accumulateLocals seq posteriors with e | l
    · rw [hl] at hfail
      have he := hloc e hl
      rw [he] at hfail
      cases hfail
    · rw [hl] at hfail
      cases hfail

/-- Witness of C12: a one-feature model given a sequence of two columns, then of one column. -/
theorem accumulate_asserts_feature_count_witness :
    (⟨1, ⟨1, 1, [1]⟩, [1], 1, ⟨1, 1, [0]⟩, ⟨1, 1, [1]⟩, ⟨1, 1, [0]⟩, ⟨1, 1, [0]⟩,
        ⟨1, 1, [0]⟩⟩ : DiagonalGaussianHMMEstep ℝ).accumulateSufficientStats
        (⟨fun s _ _ _ _ _ => s.transCounts, fun s _ _ _ _ _ => s.logProb + 1⟩ : HMMEstepBase ℝ)
        (DiagonalGaussianHMMSufficientStats.new 1) ⟨1, 2, [1, 2]⟩ [0] ⟨1, 1, [1]⟩ ⟨1, 1, [0]⟩
        ⟨1, 1, [0]⟩ = .error .assertion
    ∧ (⟨1, ⟨1, 1, [1]⟩, [1], 1, ⟨1, 1, [0]⟩, ⟨1, 1, [1]⟩, ⟨1, 1, [0]⟩, ⟨1, 1, [0]⟩,
        ⟨1, 1, [0]⟩⟩ : DiagonalGaussianHMMEstep ℝ).accumulateSufficientStats
        (⟨fun s _ _ _ _ _ => s.transCounts, fun s _ _ _ _ _ => s.logProb + 1⟩ : HMMEstepBase ℝ)
        (DiagonalGaussianHMMSufficientStats.new 1) ⟨1, 1, [1]⟩ [0] ⟨1, 1, [1]⟩ ⟨1, 1, [0]⟩
        ⟨1, 1, [0]⟩ ≠ .error .assertion :=
  ⟨(accumulate_asserts_feature_count
      (⟨1, ⟨1, 1, [1]⟩, [1], 1, ⟨1, 1, [0]⟩, ⟨1, 1, [1]⟩, ⟨1, 1, [0]⟩, ⟨1, 1, [0]⟩,
        ⟨1, 1, [0]⟩⟩ : DiagonalGaussianHMMEstep ℝ)
      (⟨fun s _ _ _ _ _ => s.transCounts, fun s _ _ _ _ _ => s.logProb + 1⟩ : HMMEstepBase ℝ)
      (DiagonalGaussianHMMSufficientStats.new 1) ⟨1, 2, [1, 2]⟩ [0] ⟨1, 1, [1]⟩ ⟨1, 1, [0]⟩
      ⟨1, 1, [0]⟩).1 (by decide),
    (accumulate_asserts_feature_count
      (⟨1, ⟨1, 1, [1]⟩, [1], 1, ⟨1, 1, [0]⟩, ⟨1, 1, [1]⟩, ⟨1, 1, [0]⟩, ⟨1, 1, [0]⟩,
        ⟨1, 1, [0]⟩⟩ : DiagonalGaussianHMMEstep ℝ)
      (⟨fun s _ _ _ _ _ => s.transCounts, fun s _ _ _ _ _ => s.logProb + 1⟩ : HMMEstepBase ℝ)
      (DiagonalGaussianHMMSufficientStats.new 1) ⟨1, 1, [1]⟩ [0] ⟨1, 1, [1]⟩ ⟨1, 1, [0]⟩
      ⟨1, 1, [0]⟩).2 rfl⟩

/-- C13: the method is the base accumulation, called with the same six arguments, followed by
an emission-specific part that does not touch `stats`. Whenever the call returns, the transition
counts and the total log-likelihood are those the base accumulation alone produces, and on
inputs of matching shapes with at most `D` rows the call does return. -/
theorem accumulate_keeps_base_fields (self : DiagonalGaussianHMMEstep ℝ)
    (base : HMMEstepBase ℝ) (stats : DiagonalGaussianHMMSufficientStats ℝ) (seq : Array2D ℝ)
    (frameLogProb : List ℝ) (posteriors fwdLattice bwdLattice : Array2D ℝ) :
    (∀ s, self.accumulateSufficientStats base stats seq frameLogProb posteriors fwdLattice
          bwdLattice = .ok s →
        s = HMMEstep.accumulateSufficientStats base stats seq frameLogProb posteriors fwdLattice
          bwdLattice)
    ∧ (seq.WF → seq.cols = self.numFeatures_ → posteriors.WF → posteriors.rows = seq.rows →
        posteriors.cols = self.numStates_ → seq.rows ≤ self.numFeatures_ →
        ∃ s, self.accumulateSufficientStats base stats seq frameLogProb posteriors fwdLattice
            bwdLattice = .ok s
          ∧ s.transCounts = (HMMEstep.accumulateSufficientStats base stats seq frameLogProb
              posteriors fwdLattice bwdLattice).transCounts
          ∧ s.logProb = (HMMEstep.accumulateSufficientStats base stats seq frameLogProb
              posteriors fwdLattice bwdLattice).logProb) := by
  constructor
  · intro s hs
    rw [accumulateSufficientStats_eq] at hs
    rcases hl : self.accumulateLocals seq posteriors with e | l
    · rw [hl] at hs; cases hs
    · rw [hl] at hs
      cases hs
      rfl
  · intro h1 h2 h3 h4 h5 h6
    obtain ⟨l, hl⟩ := accumulateLocals_ok self seq posteriors h1 h2 h3 h4 h5 h6
    rw [accumulateSufficientStats_eq, hl]
    exact ⟨_, rfl, rfl, rfl⟩

/-- Witness of C13: one state, one feature, `seq = [[2]]`, a base call that adds 1 to the total
log-likelihood. -/
theorem accumulate_keeps_base_fields_witness :
    ∃ s, (⟨1, ⟨1, 1, [1]⟩, [1], 1, ⟨1, 1, [0]⟩, ⟨1, 1, [1]⟩, ⟨1, 1, [0]⟩, ⟨1, 1, [0]⟩,
        ⟨1, 1, [0]⟩⟩ : DiagonalGaussianHMMEstep ℝ).accumulateSufficientStats
        (⟨fun s _ _ _ _ _ => s.transCounts, fun s _ _ _ _ _ => s.logProb + 1⟩ : HMMEstepBase ℝ)
        (DiagonalGaussianHMMSufficientStats.new 1) ⟨1, 1, [2]⟩ [0] ⟨1, 1, [1]⟩ ⟨1, 1, [0]⟩
        ⟨1, 1, [0]⟩ = .ok s
      ∧ s.logProb = 1 := by
  obtain ⟨s, h, _, hlp⟩ := (accumulate_keeps_base_fields
      (⟨1, ⟨1, 1, [1]⟩, [1], 1, ⟨1, 1, [0]⟩, ⟨1, 1, [1]⟩, ⟨1, 1, [0]⟩, ⟨1, 1, [0]⟩,
        ⟨1, 1, [0]⟩⟩ : DiagonalGaussianHMMEstep ℝ)
      (⟨fun s _ _ _ _ _ => s.transCounts, fun s _ _ _ _ _ => s.logProb + 1⟩ : HMMEstepBase ℝ)
      (DiagonalGaussianHMMSufficientStats.new 1) ⟨1, 1, [2]⟩ [0] ⟨1, 1, [1]⟩ ⟨1, 1, [0]⟩
      ⟨1, 1, [0]⟩).2 rfl rfl rfl rfl rfl (Nat.le_refl 1)
  refine ⟨s, h, ?_⟩
  rw [hlp]
  simp [HMMEstep.accumulateSufficientStats, DiagonalGaussianHMMSufficientStats.new]

/-- C14, evaluated at `K = 1`, `D = 2`, `T = 1`, `seq = [[2, 3]]`, `posteriors = [[1]]`: the
prepared `seq2` is `[[2, 0]]`. Entry `[0][0]` is the copy of `seq[0][0]`, not its square `4`,
and entry `[0][1]` is never written (the inner loop stops at `length = 1`), where the square
is `9`. -/
theorem seq2_not_elementwise_square :
    ∃ loc, (⟨1, ⟨1, 1, [1]⟩, [1], 2, ⟨1, 2, [0, 0]⟩, ⟨1, 2, [1, 1]⟩, ⟨1, 2, [0, 0]⟩,
        ⟨1, 2, [0, 0]⟩, ⟨1, 2, [0, 0]⟩⟩ : DiagonalGaussianHMMEstep ℝ).accumulateLocals ⟨1, 2, [2, 3]⟩ ⟨1, 1, [1]⟩ = .ok loc
      ∧ loc.seq2 = ⟨1, 2, [2, 0]⟩
      ∧ loc.seq2.get 0 0 = .ok 2 ∧ (⟨1, 2, [2, 3]⟩ : Array2D ℝ).entry 0 0 ^ 2 = 4
      ∧ loc.seq2.get 0 1 = .ok 0 ∧ (⟨1, 2, [2, 3]⟩ : Array2D ℝ).entry 0 1 ^ 2 = 9 := by
  have hloc : (⟨1, ⟨1, 1, [1]⟩, [1], 2, ⟨1, 2, [0, 0]⟩, ⟨1, 2, [1, 1]⟩, ⟨1, 2, [0, 0]⟩,
        ⟨1, 2, [0, 0]⟩, ⟨1, 2, [0, 0]⟩⟩ : DiagonalGaussianHMMEstep ℝ).accumulateLocals ⟨1, 2, [2, 3]⟩ ⟨1, 1, [1]⟩
      = .ok ⟨⟨1, 2, [2, 3]⟩, ⟨1, 2, [2, 0]⟩, ⟨1, 2, [2, 0]⟩⟩ := by
    simp [DiagonalGaussianHMMEstep.accumulateLocals, forLoop, seq2Step, sgemm_, sgemmEntry,
      sgemmDot, Array2D.get, Array2D.set, readAt, writeAt, Array2D.zeros, bind, Except.bind,
      Except.map, pure, Except.pure]
    norm_num
  refine ⟨_, hloc, rfl, ?_, ?_, ?_, ?_⟩
  · simp [Array2D.get, readAt]
  · norm_num [Array2D.entry]
  · simp [Array2D.get, readAt]
  · norm_num [Array2D.entry]

/-- C16, evaluated at `K = 1`, `D = 1`, `T = 2`, `seq = [[1], [2]]`, `posteriors = [[1], [1]]`:
the loop over `seq2` reaches the pair `(0, 1)` with `1 ≥ D`, the access `seq[0][1]` is outside
the array, and the loop, hence the whole call, ends there. -/
theorem seq2_loop_out_of_range (base : HMMEstepBase ℝ) :
    (⟨2, 1, [1, 2]⟩ : Array2D ℝ).get 0 1 = .error .outOfRange
    ∧ forLoop 2 (fun i s => forLoop 2 (seq2Step (⟨2, 1, [1, 2]⟩ : Array2D ℝ) i) s)
        (Array2D.zeros 2 1) = .error .outOfRange
    ∧ (⟨1, ⟨1, 1, [1]⟩, [1], 1, ⟨1, 1, [0]⟩, ⟨1, 1, [1]⟩, ⟨1, 1, [0]⟩, ⟨1, 1, [0]⟩,
        ⟨1, 1, [0]⟩⟩ : DiagonalGaussianHMMEstep ℝ).accumulateSufficientStats base
        (DiagonalGaussianHMMSufficientStats.new 1) ⟨2, 1, [1, 2]⟩ [0, 0] ⟨2, 1, [1, 1]⟩
        ⟨2, 1, [0, 0]⟩ ⟨2, 1, [0, 0]⟩ = .error .outOfRange := by
  refine ⟨?_, ?_, ?_⟩
  · simp [Array2D.get]
  · simp [forLoop, seq2Step, Array2D.get, Array2D.set, readAt, writeAt, Array2D.zeros, bind,
      Except.bind, Except.map]
  · rw [accumulateSufficientStats_eq]
    simp [DiagonalGaussianHMMEstep.accumulateLocals, forLoop, seq2Step, Array2D.get,
      Array2D.set, readAt, writeAt, Array2D.zeros, bind, Except.bind, Except.map]

/-- C17: the log-likelihood is largest exactly at the state mean. For a model constructed with
strictly positive variances, a state `j` and a frame `t` of `D` features, the returned value is
at most `-0.5 * (D * c + Σ_f ln(variances[j][f]))`, with equality if and only if
`X[t][f] = means[j][f]` for every feature `f`. -/
theorem emissionLogLikelihood_max_at_mean (K D : Nat) (transmat : Array2D ℝ)
    (startProb : List ℝ) (means variances X : Array2D ℝ)
    (hm : means.WF) (hmr : means.rows = K) (hmc : means.cols = D)
    (hv : variances.WF) (hvr : variances.rows = K) (hvc : variances.cols = D)
    (hpos : ∀ s f, s < K → f < D → 0 < variances.entry s f)
    (hX : X.WF) (hXc : X.cols = D) (t j : Nat) (ht : t < X.rows) (hj : j < K) :
    ∃ m out y, DiagonalGaussianHMMEstep.new Real.log K transmat startProb D means variances
        = .ok m
      ∧ m.emissionLogLikelihood X = .ok out
      ∧ out.get t j = .ok y
      ∧ y ≤ -0.5 * ((D : ℝ) * log_M_2_PI
          + ∑ f in Finset.range D, Real.log (variances.entry j f))
      ∧ (y = -0.5 * ((D : ℝ) * log_M_2_PI
            + ∑ f in Finset.range D, Real.log (variances.entry j f))
          ↔ ∀ f, f < D → X.entry t f = means.entry j f) := by
  obtain ⟨m, out, h1, h2, _, _, h3⟩ := emission_constructed K D transmat startProb means
    variances X hm hmr hmc hv hvr hvc hX hXc
  have hsplit : (∑ f in Finset.range D,
        ((X.entry t f - means.entry j f) ^ 2 / variances.entry j f
          + Real.log (variances.entry j f) + log_M_2_PI))
      = (∑ f in Finset.range D, (X.entry t f - means.entry j f) ^ 2 / variances.entry j f)
        + ((D : ℝ) * log_M_2_PI + ∑ f in Finset.range D, Real.log (variances.entry j f)) := by
    rw [Finset.sum_add_distrib, Finset.sum_add_distrib, Finset.sum_const, Finset.card_range,
      nsmul_eq_mul]
    ring
  have hnn : ∀ f ∈ Finset.range D,
      0 ≤ (X.entry t f - means.entry j f) ^ 2 / variances.entry j f := fun f hf =>
    div_nonneg (sq_nonneg _) (hpos j f hj (Finset.mem_range.mp hf)).le
  have hsum := Finset.sum_nonneg hnn
  refine ⟨m, out, _, h1, h2, h3 t j ht hj, ?_, ?_⟩
  · rw [hsplit]; linarith
  · rw [hsplit]
    constructor
    · intro heq f hf
      have h0 : (∑ f in Finset.range D,
          (X.entry t f - means.entry j f) ^ 2 / variances.entry j f) = 0 := by linarith
      have hf0 := (Finset.sum_eq_zero_iff_of_nonneg hnn).mp h0 f (Finset.mem_range.mpr hf)
      rcases div_eq_zero_iff.mp hf0 with hz | hz
      · exact sub_eq_zero.mp (pow_eq_zero_iff two_ne_zero |>.mp hz)
      · exact absurd hz (hpos j f hj hf).ne.symm
    · intro hall
      have h0 : (∑ f in Finset.range D,
          (X.entry t f - means.entry j f) ^ 2 / variances.entry j f) = 0 :=
        Finset.sum_eq_zero (fun f hf => by
          rw [hall f (Finset.mem_range.mp hf)]; simp)
      rw [h0]; ring

/-- Witness of C17: one state, one feature, mean 2, variance 4, evaluated at `x = 2`. -/
theorem emissionLogLikelihood_max_at_mean_witness :
    ∃ m out y, DiagonalGaussianHMMEstep.new Real.log 1 ⟨0, 0, []⟩ [] 1 ⟨1, 1, [2]⟩ ⟨1, 1, [4]⟩
        = .ok m
      ∧ m.emissionLogLikelihood ⟨1, 1, [2]⟩ = .ok out
      ∧ out.get 0 0 = .ok y
      ∧ y = -0.5 * (((1 : ℕ) : ℝ) * log_M_2_PI
          + ∑ f in Finset.range 1, Real.log ((⟨1, 1, [4]⟩ : Array2D ℝ).entry 0 f)) := by
  obtain ⟨m, out, y, h1, h2, h3, _, h5⟩ := emissionLogLikelihood_max_at_mean 1 1 ⟨0, 0, []⟩ []
    ⟨1, 1, [2]⟩ ⟨1, 1, [4]⟩ ⟨1, 1, [2]⟩ rfl rfl rfl rfl rfl rfl
    (fun s f hs hf => by
      obtain rfl : s = 0 := by omega
      obtain rfl : f = 0 := by omega
      norm_num [Array2D.entry])
    rfl rfl 0 0 Nat.one_pos Nat.one_pos
  refine ⟨m, out, y, h1, h2, h3, h5.mpr (fun f hf => ?_)⟩
  obtain rfl : f = 0 := by omega
  simp [Array2D.entry]

theorem index_ne (D s f s' f' : Nat) (hf : f < D) (hf' : f' < D) (h : ¬ (s' = s ∧ f' = f)) :
    s * D + f ≠ s' * D + f' := by
  intro he
  apply h
  rcases Nat.lt_trichotomy s' s with hlt | hlt | hlt
  · have := mul_succ_le_of_lt s' s D hlt
    rw [Nat.succ_mul] at this; omega
  · subst hlt; exact ⟨rfl, by omega⟩
  · have := mul_succ_le_of_lt s s' D hlt
    rw [Nat.succ_mul] at this; omega

theorem Untouched.initially {F : Type} (a0 : List F) (D : Nat) : Untouched a0 a0 D 0 0 :=
  fun _ _ _ _ => rfl

theorem Untouched.here {F : Type} {a a0 : List F} {D s f : Nat} (h : Untouched a a0 D s f)
    (hf : f < D) : a[s * D + f]? = a0[s * D + f]? :=
  h s f hf (by omega)

theorem Untouched.after_write {F : Type} {a a0 : List F} {D s f : Nat} (h : Untouched a a0 D s f)
    (hf : f < D) (v : F) : Untouched (a.set (s * D + f) v) a0 D s (f + 1) := by
  intro s' f' hf' hnot
  have hne : ¬ (s' = s ∧ f' = f) := fun he => hnot (Or.inr ⟨he.1, by omega⟩)
  rw [List.getElem?_set_ne (index_ne D s f s' f' hf hf' hne)]
  exact h s' f' hf' (fun hc => hnot (by
    rcases hc with hc | ⟨hc1, hc2⟩
    · exact Or.inl hc
    · exact Or.inr ⟨hc1, by omega⟩))

theorem Untouched.row_end {F : Type} {a a0 : List F} {D s : Nat} (h : Untouched a a0 D s D) :
    Untouched a a0 D (s + 1) 0 :=
  fun s' f' hf' hnot => h s' f' hf' (fun hc => hnot (by
    rcases hc with hc | ⟨hc1, _⟩
    · exact Or.inl (by omega)
    · exact Or.inl (by omega)))

theorem getD_congr_getElem? {F : Type} [Zero F] {a b : List F} {i : Nat}
    (h : a[i]? = b[i]?) : a.getD i 0 = b.getD i 0 := by
  simp [List.getD_eq_getElem?_getD, h]

theorem sgemmDot_loop {F : Type} [Field F] (a b : List F) (m n k i j : Nat)
    (ha : ∀ l, l < k → i + l * m < a.length) (hb : ∀ l, l < k → j + l * n < b.length) :
    forLoop k (sgemmDot .N .T a m b n i j) 0
      = .ok (∑ l in Finset.range k, a.getD (i + l * m) 0 * b.getD (j + l * n) 0) := by
  have h := forLoop_eq_of_step k (sgemmDot .N .T a m b n i j)
    (fun q => ∑ l in Finset.range q, a.getD (i + l * m) 0 * b.getD (j + l * n) 0)
    (fun l hl => by
      have e1 : readAt a (i + l * m) = .ok (a.getD (i + l * m) 0) :=
        readAt_of_lt _ _ (ha l hl)
      have e2 : readAt b (j + l * n) = .ok (b.getD (j + l * n) 0) :=
        readAt_of_lt _ _ (hb l hl)
      simp only [sgemmDot, e1, e2, ok_bind, Finset.sum_range_succ]
      rfl)
  simpa using h

/-- The call `sgemm_("N", "T", m, n, k, alpha, a, m, b, n, beta, c, m)` on buffers of `k * m`,
`k * n` and `n * m` elements runs to its end and leaves `sgemmValue j i` at index `j * m + i`. -/
theorem sgemm_NT_spec {F : Type} [Field F] (m n k : Nat) (alpha : F) (a b : List F) (beta : F)
    (c : List F) (ha : a.length = k * m) (hb : b.length = k * n) (hc : c.length = n * m) :
    ∃ c', sgemm_ .N .T m n k alpha a m b n beta c m = .ok c'
      ∧ c'.length = n * m
      ∧ ∀ j i, j < n → i < m → c'[j * m + i]? = some (sgemmValue m n k alpha a b beta c j i) := by
  unfold sgemm_
  obtain ⟨c', h, hF, _⟩ := forLoop_inv
    (fun j (x : List F) => Filled x n m (sgemmValue m n k alpha a b beta c) j 0
      ∧ Untouched x c m j 0) n
    (fun j x => forLoop m (sgemmEntry .N .T k alpha a m b n beta m j) x) c
    ⟨Filled.start c n m _ hc, Untouched.initially c m⟩
    (fun j x hj hP => by
      obtain ⟨x', h', hF', hU'⟩ := forLoop_inv
        (fun i (x : List F) => Filled x n m (sgemmValue m n k alpha a b beta c) j i
          ∧ Untouched x c m j i) m
        (sgemmEntry .N .T k alpha a m b n beta m j) x hP
        (fun i y hi hQ => by
          obtain ⟨hFy, hUy⟩ := hQ
          have hidx : i + j * m < y.length := by
            rw [Nat.add_comm]; exact hFy.index_lt hj hi
          have hdot := sgemmDot_loop a b m n k i j
            (fun l hl => by rw [ha, Nat.add_comm]; exact index_lt_of_lt l i _ _ hl hi)
            (fun l hl => by rw [hb, Nat.add_comm]; exact index_lt_of_lt l j _ _ hl hj)
          have hold : y.getD (i + j * m) 0 = c.getD (i + j * m) 0 := by
            rw [Nat.add_comm]; exact getD_congr_getElem? (hUy.here hi)
          refine ⟨y.set (j * m + i) (sgemmValue m n k alpha a b beta c j i), ?_,
            hFy.write hj hi, hUy.after_write hi _⟩
          simp only [sgemmEntry, hdot, readAt_of_lt _ _ hidx, ok_bind, hold]
          rw [writeAt_of_lt _ _ _ hidx, Nat.add_comm (j * m) i]
          rfl)
      exact ⟨x', h', hF'.next_row, hU'.row_end⟩)
  exact ⟨c', h, hF.1, fun j i hj hi => hF.entry hj hi⟩

/-- When the emission-specific part returns, its local `obs` is what the first `sgemm_` call of
the source leaves in the zeroed `K × D` buffer. -/
theorem accumulateLocals_obs {F : Type} [Field F] (self : DiagonalGaussianHMMEstep F)
    (seq posteriors : Array2D F) (loc : AccumulateLocals F)
    (h : self.accumulateLocals seq posteriors = .ok loc) :
    ∃ o, sgemm_ .N .T self.numFeatures_ self.numStates_ seq.rows (1.0 : F) seq.data
        self.numFeatures_ posteriors.data self.numStates_ (1.0 : F)
        (Array2D.zeros self.numStates_ self.numFeatures_).data self.numFeatures_ = .ok o
      ∧ loc.obs = ⟨self.numStates_, self.numFeatures_, o⟩ := by
  unfold DiagonalGaussianHMMEstep.accumulateLocals at h
  by_cases hc : seq.cols = self.numFeatures_
  case neg =>
    simp only [hc, ne_eq, not_false_eq_true, if_true] at h
    cases h
  case pos =>
    simp only [hc, ne_eq, not_true_eq_false, if_false] at h
    rcases h2 : forLoop seq.rows (fun i s => forLoop seq.rows (seq2Step seq i) s)
      (Array2D.zeros seq.rows self.numFeatures_) with e | seq2
    · rw [h2] at h; cases h
    · rw [h2] at h
      simp only [ok_bind] at h
      rcases h3 : sgemm_ .N .T self.numFeatures_ self.numStates_ seq.rows (1.0 : F) seq.data
        self.numFeatures_ posteriors.data self.numStates_ (1.0 : F)
        (Array2D.zeros self.numStates_ self.numFeatures_).data self.numFeatures_ with e | o
      · rw [h3] at h; cases h
      · rw [h3] at h
        simp only [ok_bind] at h
        rcases h4 : sgemm_ .N .T self.numFeatures_ self.numStates_ seq.rows (1.0 : F) seq2.data
          self.numFeatures_ posteriors.data self.numStates_ (1.0 : F)
          (Array2D.zeros self.numStates_ self.numFeatures_).data self.numFeatures_ with e | o2
        · rw [h4] at h; cases h
        · rw [h4] at h
          cases h
          exact ⟨o, rfl, rfl⟩

theorem getD_replicate_zero {F : Type} [Zero F] (n i : Nat) :
    (List.replicate n (0 : F)).getD i 0 = 0 := by
  rw [List.getD_eq_getElem?_getD, List.getElem?_replicate]
  split <;> rfl

/-- C15: the first matrix product is posterior-transposed times sequence. For a sequence of `T`
rows and `D` columns and posteriors of `T` rows and `K` columns, the `sgemm_` call of the source
on the zeroed `K × D` buffer runs to its end and leaves, read row-major,
`obs[s][f] = Σ_{t<T} posteriors[t][s] * seq[t][f]` for every `s < K` and `f < D`; this buffer is
the local `obs` of `accumulateSufficientStats` whenever that part of the method returns. -/
theorem obs_is_posterior_transpose_times_seq (self : DiagonalGaussianHMMEstep ℝ)
    (seq posteriors : Array2D ℝ) (hs : seq.WF) (hsc : seq.cols = self.numFeatures_)
    (hp : posteriors.WF) (hpr : posteriors.rows = seq.rows)
    (hpc : posteriors.cols = self.numStates_) :
    ∃ o, sgemm_ .N .T self.numFeatures_ self.numStates_ seq.rows (1.0 : ℝ) seq.data
        self.numFeatures_ posteriors.data self.numStates_ (1.0 : ℝ)
        (Array2D.zeros self.numStates_ self.numFeatures_).data self.numFeatures_ = .ok o
      ∧ (∀ s f, s < self.numStates_ → f < self.numFeatures_ →
          (⟨self.numStates_, self.numFeatures_, o⟩ : Array2D ℝ).get s f
            = .ok (∑ t in Finset.range seq.rows, posteriors.entry t s * seq.entry t f))
      ∧ (∀ loc, self.accumulateLocals seq posteriors = .ok loc →
          loc.obs = ⟨self.numStates_, self.numFeatures_, o⟩)
      ∧ (seq.rows ≤ self.numFeatures_ →
          ∃ loc, self.accumulateLocals seq posteriors = .ok loc
            ∧ loc.obs = ⟨self.numStates_, self.numFeatures_, o⟩) := by
  have hsl : seq.data.length = seq.rows * self.numFeatures_ := by rw [← hsc]; exact hs
  have hpl : posteriors.data.length = seq.rows * self.numStates_ := by
    rw [← hpc, ← hpr]; exact hp
  obtain ⟨o, ho, _, hval⟩ := sgemm_NT_spec self.numFeatures_ self.numStates_ seq.rows (1.0 : ℝ)
    seq.data posteriors.data (1.0 : ℝ) (Array2D.zeros self.numStates_ self.numFeatures_).data
    hsl hpl (List.length_replicate _ _)
  have hobs : ∀ loc, self.accumulateLocals seq posteriors = .ok loc →
      loc.obs = ⟨self.numStates_, self.numFeatures_, o⟩ := by
    intro loc hloc
    obtain ⟨o', ho', hl⟩ := accumulateLocals_obs self seq posteriors loc hloc
    rw [ho] at ho'
    cases ho'
    exact hl
  refine ⟨o, ho, fun s f hs' hf => ?_, hobs, fun hT => ?_⟩
  · apply Array2D.get_eq_of_getElem? (⟨self.numStates_, self.numFeatures_, o⟩ : Array2D ℝ)
      s f _ hs' hf
    show o[s * self.numFeatures_ + f]? = _
    rw [hval s f hs' hf]
    congr 1
    unfold sgemmValue
    have hz : (Array2D.zeros self.numStates_ self.numFeatures_ : Array2D ℝ).data.getD
        (f + s * self.numFeatures_) 0 = 0 := getD_replicate_zero _ _
    rw [hz]
    norm_num
    refine Finset.sum_congr rfl (fun t _ => ?_)
    unfold Array2D.entry
    rw [hsc, hpc, Nat.add_comm f, Nat.add_comm s, mul_comm]
    simp only [List.getD_eq_getElem?_getD]
  · obtain ⟨loc, hloc⟩ := accumulateLocals_ok self seq posteriors hs hsc hp hpr hpc hT
    exact ⟨loc, hloc, hobs loc hloc⟩

/-- Witness of C15: one state, two features, `seq = [[2, 3]]`, `posteriors = [[5]]`; the local
`obs` is `[[10, 15]]`. -/
theorem obs_is_posterior_transpose_times_seq_witness :
    ∃ loc, (⟨1, ⟨1, 1, [1]⟩, [1], 2, ⟨1, 2, [0, 0]⟩, ⟨1, 2, [1, 1]⟩, ⟨1, 2, [0, 0]⟩,
        ⟨1, 2, [0, 0]⟩, ⟨1, 2, [0, 0]⟩⟩ : DiagonalGaussianHMMEstep ℝ).accumulateLocals
          ⟨1, 2, [2, 3]⟩ ⟨1, 1, [5]⟩ = .ok loc
      ∧ loc.obs.get 0 0 = .ok 10 ∧ loc.obs.get 0 1 = .ok 15 := by
  obtain ⟨o, _, hval, _, hloc⟩ := obs_is_posterior_transpose_times_seq
    (⟨1, ⟨1, 1, [1]⟩, [1], 2, ⟨1, 2, [0, 0]⟩, ⟨1, 2, [1, 1]⟩, ⟨1, 2, [0, 0]⟩,
      ⟨1, 2, [0, 0]⟩, ⟨1, 2, [0, 0]⟩⟩ : DiagonalGaussianHMMEstep ℝ)
    ⟨1, 2, [2, 3]⟩ ⟨1, 1, [5]⟩ rfl rfl rfl rfl rfl
  obtain ⟨loc, h1, h2⟩ := hloc (by decide)
  refine ⟨loc, h1, ?_, ?_⟩
  · rw [h2, hval 0 0 (by decide) (by decide)]
    norm_num [Array2D.entry]
  · rw [h2, hval 0 1 (by decide) (by decide)]
    norm_num [Array2D.entry]

theorem list_eq_of_entries {F : Type} (l1 l2 : List F) (T K : Nat) (h1 : l1.length = T * K)
    (h2 : l2.length = T * K)
    (h : ∀ t j, t < T → j < K → l1[t * K + j]? = l2[t * K + j]?) : l1 = l2 := by
  apply List.ext_getElem?
  intro n
  by_cases hn : n < T * K
  · have hK : 0 < K := by
      rcases Nat.eq_zero_or_pos K with h0 | h0
      · rw [h0, Nat.mul_zero] at hn; exact absurd hn (Nat.not_lt_zero _)
      · exact h0
    have hdiv : n / K < T := (Nat.div_lt_iff_lt_mul hK).mpr hn
    have hmod : n % K < K := Nat.mod_lt _ hK
    have hn' : n / K * K + n % K = n := by
      rw [Nat.mul_comm]; exact Nat.div_add_mod n K
    have := h (n / K) (n % K) hdiv hmod
    rwa [hn'] at this
  · rw [List.getElem?_eq_none (by omega), List.getElem?_eq_none (by omega)]

theorem logLikValue_congr {F : Type} [Field F] (seq1 seq2 variances mov m2ov lv : List F)
    (D t1 t2 j : Nat)
    (h : ∀ i, i < D → seq1.getD (t1 * D + i) 0 = seq2.getD (t2 * D + i) 0) :
    logLikValue seq1 variances mov m2ov lv D t1 j
      = logLikValue seq2 variances mov m2ov lv D t2 j := by
  unfold logLikValue tempSum
  congr 2
  refine Finset.sum_congr rfl (fun i hi => ?_)
  rw [h i (Finset.mem_range.mp hi)]

/-- C18: the method works frame by frame. For a model whose arrays hold `K * D` elements and two
sequences `A` and `B` of `D` columns, the result for `A` followed by `B` is the result for `A`
followed row-wise by the result for `B`. -/
theorem emissionLogLikelihood_vstack (self : DiagonalGaussianHMMEstep ℝ) (A B : Array2D ℝ)
    (hA : A.WF) (hAc : A.cols = self.numFeatures_)
    (hB : B.WF) (hBc : B.cols = self.numFeatures_)
    (hv : self.variances_.data.length = self.numStates_ * self.numFeatures_)
    (hm1 : self.meansOverVariances_.data.length = self.numStates_ * self.numFeatures_)
    (hm2 : self.means2OverVariances_.data.length = self.numStates_ * self.numFeatures_)
    (hlv : self.logVariances_.data.length = self.numStates_ * self.numFeatures_) :
    ∃ outA outB outAB, self.emissionLogLikelihood A = .ok outA
      ∧ self.emissionLogLikelihood B = .ok outB
      ∧ self.emissionLogLikelihood (A.vstack B) = .ok outAB
      ∧ outAB = outA.vstack outB := by
  have hAl : A.data.length = A.rows * self.numFeatures_ := by rw [← hAc]; exact hA
  have hBl : B.data.length = B.rows * self.numFeatures_ := by rw [← hBc]; exact hB
  have hAB : (A.vstack B).WF := by
    show (A.data ++ B.data).length = (A.rows + B.rows) * A.cols
    rw [List.length_append, hAl, hBl, hAc, Nat.add_mul]
  obtain ⟨la, ha, hla, hva⟩ := emission_spec self A hA hAc hv hm1 hm2 hlv
  obtain ⟨lb, hb, hlb, hvb⟩ := emission_spec self B hB hBc hv hm1 hm2 hlv
  obtain ⟨lab, hab, hlab, hvab⟩ := emission_spec self (A.vstack B) hAB hAc hv hm1 hm2 hlv
  refine ⟨_, _, _, ha, hb, hab, ?_⟩
  show (⟨A.rows + B.rows, self.numStates_, lab⟩ : Array2D ℝ)
    = ⟨A.rows + B.rows, self.numStates_, la ++ lb⟩
  congr 1
  apply list_eq_of_entries lab (la ++ lb) (A.rows + B.rows) self.numStates_ hlab
    (by rw [List.length_append, hla, hlb, Nat.add_mul])
  intro t j ht hj
  rw [hvab t j ht hj]
  show some (logLikValue (A.data ++ B.data) _ _ _ _ _ t j) = _
  by_cases htA : t < A.rows
  · have hidx : t * self.numStates_ + j < la.length := by
      rw [hla]; exact index_lt_of_lt t j _ _ htA hj
    rw [List.getElem?_append_left hidx, hva t j htA hj]
    congr 1
    apply logLikValue_congr
    intro i hi
    exact List.getD_append _ _ _ _ (by rw [hAl]; exact index_lt_of_lt t i _ _ htA hi)
  · obtain ⟨t', rfl⟩ : ∃ t', t = A.rows + t' := ⟨t - A.rows, by omega⟩
    have ht' : t' < B.rows := by omega
    have hidx : la.length ≤ (A.rows + t') * self.numStates_ + j := by
      rw [hla, Nat.add_mul]; omega
    rw [List.getElem?_append_right hidx]
    have hsub : (A.rows + t') * self.numStates_ + j - la.length = t' * self.numStates_ + j := by
      rw [hla, Nat.add_mul]; omega
    rw [hsub, hvb t' j ht' hj]
    congr 1
    apply logLikValue_congr
    intro i _
    have hge : A.data.length ≤ (A.rows + t') * self.numFeatures_ + i := by
      rw [hAl, Nat.add_mul]; omega
    rw [List.getD_append_right _ _ _ _ hge]
    congr 1
    rw [hAl, Nat.add_mul]; omega

/-- Witness of C18: one state, one feature, cache `m2 = 5`, `m1 = 3`, `v = 4`, `lv = 7`,
`A = [[2]]` and `B = [[0], [1]]`. -/
theorem emissionLogLikelihood_vstack_witness :
    ∃ outA outB outAB,
      (⟨1, ⟨0, 0, []⟩, [], 1, ⟨1, 1, [2]⟩, ⟨1, 1, [4]⟩, ⟨1, 1, [7]⟩, ⟨1, 1, [3]⟩,
        ⟨1, 1, [5]⟩⟩ : DiagonalGaussianHMMEstep ℝ).emissionLogLikelihood ⟨1, 1, [2]⟩ = .ok outA
      ∧ (⟨1, ⟨0, 0, []⟩, [], 1, ⟨1, 1, [2]⟩, ⟨1, 1, [4]⟩, ⟨1, 1, [7]⟩, ⟨1, 1, [3]⟩,
        ⟨1, 1, [5]⟩⟩ : DiagonalGaussianHMMEstep ℝ).emissionLogLikelihood ⟨2, 1, [0, 1]⟩
          = .ok outB
      ∧ (⟨1, ⟨0, 0, []⟩, [], 1, ⟨1, 1, [2]⟩, ⟨1, 1, [4]⟩, ⟨1, 1, [7]⟩, ⟨1, 1, [3]⟩,
        ⟨1, 1, [5]⟩⟩ : DiagonalGaussianHMMEstep ℝ).emissionLogLikelihood ⟨3, 1, [2, 0, 1]⟩
          = .ok outAB
      ∧ outAB = outA.vstack outB :=
  emissionLogLikelihood_vstack
    (⟨1, ⟨0, 0, []⟩, [], 1, ⟨1, 1, [2]⟩, ⟨1, 1, [4]⟩, ⟨1, 1, [7]⟩, ⟨1, 1, [3]⟩, ⟨1, 1, [5]⟩⟩ :
      DiagonalGaussianHMMEstep ℝ) ⟨1, 1, [2]⟩ ⟨2, 1, [0, 1]⟩ rfl rfl rfl rfl rfl rfl rfl rfl

end Mixtape
